import Mathlib

/-!
Verification development for the Chimera module-dependency analysis scripts.

The repository contains three overlapping Python implementations of a
dependency-graph analysis engine:

* `src/Tools/dependency_analyzer.py` (`DependencyAnalyzer`),
* `src/Assets/ProjectChimera/Data/Genetics/assembly_dependency_analyzer.py`
  (`AssemblyDependencyAnalyzer`),
* `src/analyze_circular_deps.py` (module-level functions).

This file gives a shallow embedding of the graph model and the analysis
passes of those scripts and proves, or refutes, the behavioural properties
stated for them.

Modelling conventions:

* A Python `dict` is embedded as an association list (`Dict V` below) with
  Python semantics: assignment to an existing key updates the value in
  place and keeps the key's original position; assignment to a new key
  appends it.  Iteration order is therefore the faithful CPython
  insertion order.
* A Python `set` that is only ever built by `add` is embedded as a
  duplicate-free list in insertion order (`setAdd` below).  Within a single
  process CPython iterates an unchanged set in a fixed order; the claims
  in this development only depend on set iteration order where that order
  is a singleton, so the embedding's choice of insertion order is
  observationally faithful.
* Unbounded Python recursion is embedded with an explicit fuel parameter;
  each embedded recursive function consumes one unit of fuel per call, and
  the top-level entry points supply fuel that dominates the recursion
  depth of the Python original.  All universal theorems below are proved
  for every fuel value, so they apply in particular to the chosen one.
-/

namespace Chimera

/-- Association-list embedding of a Python `dict` with `String` keys. -/
abbrev Dict (V : Type) : Type := List (String × V)

/-- `d[k]` lookup: first entry with the given key. -/
def dictLookup {V : Type} (d : Dict V) (k : String) : Option V :=
  match d with
  | [] => none
  | (k', v) :: rest => if k' = k then some v else dictLookup rest k

/-- `d.get(k, dflt)`. -/
def dictGet {V : Type} (d : Dict V) (k : String) (dflt : V) : V :=
  match dictLookup d k with
  | some v => v
  | none => dflt

/-- The keys of a dict in iteration (insertion) order. -/
def dictKeys {V : Type} (d : Dict V) : List String :=
  d.map (fun p => p.1)

/-- `d[k] = v`: update in place if the key exists (keeping its position),
otherwise append the new key at the end, exactly as a CPython dict. -/
def dictInsert {V : Type} (d : Dict V) (k : String) (v : V) : Dict V :=
  match d with
  | [] => [(k, v)]
  | (k', v') :: rest =>
    if k' = k then (k', v) :: rest else (k', v') :: dictInsert rest k v

/-- `s.add(x)` on a Python set embedded as an insertion-ordered
duplicate-free list. -/
def setAdd (s : List String) (x : String) : List String :=
  if x ∈ s then s else s ++ [x]

/-- First index of `x` in `l` (Python `list.index`; value at absent keys is
irrelevant, the sources only call it on members). -/
def idxOfFirst (x : String) : List String → Nat
  | [] => 0
  | y :: ys => if y = x then 0 else idxOfFirst x ys + 1

/-- Fuel that dominates the recursion depth of the embedded depth-first
traversals over adjacency structure `d`. -/
def fuelOf {V : Type} (sz : V → Nat) (d : Dict V) : Nat :=
  2 * (d.length + (d.map (fun p => sz p.2)).sum) + 4

/-- Substring test. `subOccurs needle hay` embeds Python's
`needle in hay` on strings. -/
def charsLead : List Char → List Char → Bool
  | [], _ => true
  | _ :: _, [] => false
  | a :: as, b :: bs => a = b && charsLead as bs

/-- Does `needle` occur contiguously in `hay`? -/
def charsSub (needle : List Char) : List Char → Bool
  | [] => charsLead needle []
  | b :: bs => charsLead needle (b :: bs) || charsSub needle bs

/-- Python `needle in hay` for strings. -/
def subOccurs (needle hay : String) : Bool :=
  charsSub needle.data hay.data

/-- A directed edge of the dependency graph between known modules:
both endpoints are declared and the target is listed among the source's
references.  This is exactly the edge relation that every traversal in the
sources follows (unknown targets are never expanded). -/
def EdgeP (g : Dict (List String)) (u v : String) : Prop :=
  u ∈ dictKeys g ∧ v ∈ dictKeys g ∧ v ∈ dictGet g u []

instance (g : Dict (List String)) (u v : String) : Decidable (EdgeP g u v) :=
  inferInstanceAs (Decidable (u ∈ dictKeys g ∧ v ∈ dictKeys g ∧ v ∈ dictGet g u []))

/-- The graph has no directed cycle among known modules. -/
def Acyclic (g : Dict (List String)) : Prop :=
  ∀ x, ¬ Relation.TransGen (EdgeP g) x x

/-- Every pair of consecutive elements of the list is a forward edge
between known modules. -/
def ChainEdges (g : Dict (List String)) : List String → Prop
  | [] => True
  | [_] => True
  | a :: b :: t => EdgeP g a b ∧ ChainEdges g (b :: t)

/-- `ChainEdges` is executable. -/
def chainEdgesDec (g : Dict (List String)) :
    (l : List String) → Decidable (ChainEdges g l)
  | [] => .isTrue trivial
  | [_] => .isTrue trivial
  | a :: b :: t =>
    have : Decidable (ChainEdges g (b :: t)) := chainEdgesDec g (b :: t)
    inferInstanceAs (Decidable (EdgeP g a b ∧ ChainEdges g (b :: t)))

instance (g : Dict (List String)) (l : List String) :
    Decidable (ChainEdges g l) := chainEdgesDec g l

/-- A well-formed cycle in the sense of the specification: the sequence is
closed (first element equals last) and every consecutive pair is a forward
edge between known modules. -/
def WellFormedCycle (g : Dict (List String)) (c : List String) : Prop :=
  c.head? = c.getLast? ∧ ChainEdges g c

instance (g : Dict (List String)) (c : List String) :
    Decidable (WellFormedCycle g c) :=
  inferInstanceAs (Decidable (c.head? = c.getLast? ∧ ChainEdges g c))

namespace Tools

/-!  Embedding of `DependencyAnalyzer` from `src/Tools/dependency_analyzer.py`.

`self.dependency_graph` is a `dict` mapping assembly name to its raw
`references` list; it is the sole input of `find_cycles`. -/

/-- Mutable state of `find_cycles`: `cycles`, the `visited` set, the
`rec_stack` set and the `path` list.  `rec_stack` is a set in Python, but
elements are only ever added when absent and removed when present, so the
insertion-ordered list below carries the same membership information. -/
structure FCState where
  cycles : List (List String)
  visited : List String
  recStack : List String
  path : List String
deriving Repr, DecidableEq

/-- One step of the `dfs` closure inside `find_cycles`.
`Sum.inl node` is a call `dfs(node)`; `Sum.inr nbs` is the remainder of the
loop `for neighbor in self.dependency_graph.get(node, [])` (the node itself
is recoverable as the last element of `path`).  The Boolean result is the
Python return value of `dfs`.

Faithful bug included: when `dfs` returns `True` the code returns before
executing `rec_stack.remove(node)` and `path.pop()`, so those structures
keep stale entries for subsequent outer-loop starts. -/
def step (g : Dict (List String)) : Nat → Sum String (List String) → FCState →
    Bool × FCState
  | 0, _, s => (false, s)
  | fuel + 1, Sum.inl node, s =>
    if node ∈ s.recStack then
      let cycle := s.path.drop (idxOfFirst node s.path) ++ [node]
      (true, { s with cycles := s.cycles ++ [cycle] })
    else if node ∈ s.visited then
      (false, s)
    else
      let s1 : FCState :=
        { s with visited := setAdd s.visited node,
                 recStack := s.recStack ++ [node],
                 path := s.path ++ [node] }
      match step g fuel (Sum.inr (dictGet g node [])) s1 with
      | (true, s2) => (true, s2)
      | (false, s2) =>
        (false, { s2 with recStack := s2.recStack.erase node,
                          path := s2.path.dropLast })
  | _ + 1, Sum.inr [], s => (false, s)
  | fuel + 1, Sum.inr (nb :: rest), s =>
    if nb ∈ dictKeys g then
      match step g fuel (Sum.inl nb) s with
      | (true, s') => (true, s')
      | (false, s') => step g fuel (Sum.inr rest) s'
    else
      step g fuel (Sum.inr rest) s

/-- `load_assemblies`: `self.dependency_graph[assembly_name] = references`
for every parsed file, in file order. -/
def load (decls : List (String × List String)) : Dict (List String) :=
  decls.foldl (fun m d => dictInsert m d.1 d.2) []

/-- The outer loop `for assembly in self.dependency_graph`. -/
def findCyclesAux (g : Dict (List String)) : List String → FCState → FCState
  | [], s => s
  | a :: rest, s =>
    if a ∈ s.visited then findCyclesAux g rest s
    else findCyclesAux g rest (step g (fuelOf List.length g) (Sum.inl a) s).2

/-- `DependencyAnalyzer.find_cycles`. -/
def find_cycles (g : Dict (List String)) : List (List String) :=
  (findCyclesAux g (dictKeys g) ⟨[], [], [], []⟩).cycles

end Tools

/-!  Tarjan's strongly-connected-components algorithm, shared shape.

`AssemblyDependencyAnalyzer.find_strongly_connected_components` and
`analyze_circular_deps.find_strongly_connected_components` are the same
algorithm; the former additionally skips successors that are not keys of
`self.assemblies` and starts from the assembly names, the latter follows
every successor and starts from the graph keys.  `internal` and the `roots`
argument of `tarjanRun` capture exactly that difference. -/

/-- The mutable state of `strongconnect`: `index_counter`, the `index` and
`lowlinks` dicts, the explicit `stack` (top element first; Python appends
and pops at the end of its list), the `on_stack` dict and the accumulated
component list. -/
structure TarjanState where
  counter : Nat
  index : Dict Nat
  lowlinks : Dict Nat
  stack : List String
  on_stack : Dict Bool
  sccs : List (List String)
deriving Repr, DecidableEq

/-- The pop loop at the end of `strongconnect`: pop stack entries into the
component, in pop order, until `node` is popped. -/
def popComponent (node : String) : List String → List String × List String
  | [] => ([], [])
  | w :: rest =>
    if w = node then ([w], rest)
    else
      let pr := popComponent node rest
      (w :: pr.1, pr.2)

/-- The successor loop of `strongconnect`: `sc` is the recursive
`strongconnect` call (at one less recursion depth), `internal` filters the
successors that are followed at all.  For a fresh successor the call
recurses and then lowers `lowlinks[node]` by the successor's lowlink; for
an indexed successor that is still on the stack it lowers
`lowlinks[node]` by the successor's index; otherwise it does nothing. -/
def tarjanNbs (internal : String → Bool)
    (sc : String → TarjanState → TarjanState) (node : String) :
    List String → TarjanState → TarjanState
  | [], st => st
  | nb :: rest, st =>
    let st' :=
      if internal nb then
        if nb ∈ dictKeys st.index then
          if dictGet st.on_stack nb false then
            let ll := dictInsert st.lowlinks node
              (min (dictGet st.lowlinks node 0) (dictGet st.index nb 0))
            { st with lowlinks := ll }
          else st
        else
          let st1 := sc nb st
          let ll := dictInsert st1.lowlinks node
            (min (dictGet st1.lowlinks node 0) (dictGet st1.lowlinks nb 0))
          { st1 with lowlinks := ll }
      else st
    tarjanNbs internal sc node rest st'

/-- `strongconnect(node)`: assign index and lowlink, push, process the
successor loop, then pop a component if `node` is a component root.  The
fuel bounds the nesting depth of `strongconnect` calls; since every nested
call is on a not-yet-indexed node and indexes it immediately, a fuel
exceeding the number of distinct reachable nodes is never exhausted. -/
def tarjanStep (adj : Dict (List String)) (internal : String → Bool) :
    Nat → String → TarjanState → TarjanState
  | 0, _, st => st
  | fuel + 1, node, st =>
    let st1 : TarjanState :=
      { st with index := dictInsert st.index node st.counter,
                lowlinks := dictInsert st.lowlinks node st.counter,
                counter := st.counter + 1,
                stack := node :: st.stack,
                on_stack := dictInsert st.on_stack node true }
    let st2 := tarjanNbs internal (tarjanStep adj internal fuel) node
      (dictGet adj node []) st1
    if dictGet st2.lowlinks node 0 = dictGet st2.index node 0 then
      let pr := popComponent node st2.stack
      let st3 : TarjanState :=
        { st2 with stack := pr.2,
                   on_stack := pr.1.foldl (fun m w => dictInsert m w false) st2.on_stack }
      if pr.1.length > 1 then { st3 with sccs := st3.sccs ++ [pr.1] } else st3
    else st2

/-- Recursion-depth budget for `strongconnect`: every node that is ever
assigned an index is a root or a listed successor, so this budget is never
exhausted. -/
def tarjanFuel (adj : Dict (List String)) (roots : List String) : Nat :=
  roots.length + (adj.map (fun p => p.2.length)).sum + 1

/-- The outer loop calling `strongconnect` on every not-yet-indexed root. -/
def tarjanRun (adj : Dict (List String)) (internal : String → Bool)
    (roots : List String) : List (List String) :=
  (roots.foldl
    (fun st r =>
      if r ∈ dictKeys st.index then st
      else tarjanStep adj internal (tarjanFuel adj roots) r st)
    ⟨0, [], [], [], [], []⟩).sccs

namespace Genetics

/-!  Embedding of `AssemblyDependencyAnalyzer` from
`src/Assets/ProjectChimera/Data/Genetics/assembly_dependency_analyzer.py`.

File discovery and JSON parsing are external; a declaration is the parsed
payload `{name, references, assemblyReferences}` of one `.asmdef` file. -/

/-- The per-assembly record stored by `load_assembly_definitions`
(the `file_path`/`data` fields play no role in any analysis pass). -/
structure GInfo where
  references : List String
  assemblyReferences : List String
deriving Repr, DecidableEq

/-- `load_assembly_definitions`: `self.assemblies[assembly_name] = {...}`
for each parsed file, in file order. -/
def load (decls : List (String × GInfo)) : Dict GInfo :=
  decls.foldl (fun m d => dictInsert m d.1 d.2) []

/-- `self.dependency_graph[k].add(v)` on a `defaultdict(set)`. -/
def dictAddSet (d : Dict (List String)) (k v : String) : Dict (List String) :=
  dictInsert d k (setAdd (dictGet d k []) v)

/-- Python `ref.startswith(lead)`. -/
def strStarts (lead s : String) : Bool :=
  charsLead lead.data s.data

/-- `build_dependency_graph`: forward and reverse adjacency from
`references`, plus non-`GUID:` entries of `assemblyReferences`. -/
def build_dependency_graph (assemblies : Dict GInfo) :
    Dict (List String) × Dict (List String) :=
  assemblies.foldl
    (fun gr p =>
      let gr1 := p.2.references.foldl
        (fun gr ref => (dictAddSet gr.1 p.1 ref, dictAddSet gr.2 ref p.1)) gr
      p.2.assemblyReferences.foldl
        (fun gr ref =>
          if strStarts "GUID:" ref then gr
          else (dictAddSet gr.1 p.1 ref, dictAddSet gr.2 ref p.1)) gr1)
    ([], [])

/-- The analyzer after `load_assembly_definitions` and
`build_dependency_graph`. -/
structure Analyzer where
  assemblies : Dict GInfo
  graph : Dict (List String)
  rgraph : Dict (List String)
deriving Repr, DecidableEq

/-- Build the analyzer state from parsed declarations. -/
def mkAnalyzer (decls : List (String × GInfo)) : Analyzer :=
  let as := load decls
  let gr := build_dependency_graph as
  ⟨as, gr.1, gr.2⟩

/-- State of `detect_circular_dependencies`: the shared `visited` and
`rec_stack` sets and the accumulated cycle list.  The `path` argument is
passed by value (`path.copy()` in the source), so it is a parameter of the
step function, not part of the state. -/
structure GDfsState where
  visited : List String
  recStack : List String
  cycles : List (List String)
deriving Repr, DecidableEq

/-- One step of the `dfs` closure inside `detect_circular_dependencies`.
`Sum.inl (node, path)` is a call `dfs(node, path)`; `Sum.inr (nbs, path)`
is the remainder of the neighbor loop, where `path` already ends with the
current node. -/
def dfsStep (A : Analyzer) :
    Nat → Sum (String × List String) (List String × List String) →
    GDfsState → GDfsState
  | 0, _, s => s
  | fuel + 1, Sum.inl (node, path), s =>
    if node ∈ s.recStack then
      { s with cycles := s.cycles ++ [path.drop (idxOfFirst node path) ++ [node]] }
    else if node ∈ s.visited then s
    else
      let s1 : GDfsState :=
        { s with visited := setAdd s.visited node,
                 recStack := s.recStack ++ [node] }
      let s2 := dfsStep A fuel (Sum.inr (dictGet A.graph node [], path ++ [node])) s1
      { s2 with recStack := s2.recStack.erase node }
  | _ + 1, Sum.inr ([], _), s => s
  | fuel + 1, Sum.inr (nb :: rest, path), s =>
    let s' :=
      if nb ∈ dictKeys A.assemblies then dfsStep A fuel (Sum.inl (nb, path)) s
      else s
    dfsStep A fuel (Sum.inr (rest, path)) s'

/-- Fuel dominating the recursion depth of `dfs`. -/
def detectFuel (A : Analyzer) : Nat :=
  4 * (A.graph.length + (A.graph.map (fun p => p.2.length)).sum
        + A.assemblies.length) + 8

/-- The outer loop of `detect_circular_dependencies`. -/
def detectAux (A : Analyzer) : List String → GDfsState → GDfsState
  | [], s => s
  | a :: rest, s =>
    if a ∈ s.visited then detectAux A rest s
    else detectAux A rest (dfsStep A (detectFuel A) (Sum.inl (a, [])) s)

/-- `AssemblyDependencyAnalyzer.detect_circular_dependencies`. -/
def detect_circular_dependencies (A : Analyzer) : List (List String) :=
  (detectAux A (dictKeys A.assemblies) ⟨[], [], []⟩).cycles

/-- `AssemblyDependencyAnalyzer.find_strongly_connected_components`:
Tarjan over the forward adjacency, skipping successors not in
`self.assemblies`, rooted at the assembly names. -/
def find_strongly_connected_components (A : Analyzer) : List (List String) :=
  tarjanRun A.graph (fun nb => decide (nb ∈ dictKeys A.assemblies))
    (dictKeys A.assemblies)

/-- The violations dict of `analyze_dependency_violations`; the last two
categories are initialized and never appended to anywhere in the source. -/
structure GViolations where
  editor_runtime_cycles : List String
  test_production_cycles : List String
  circular_core_dependencies : List String
  missing_dependencies : List String
deriving Repr, DecidableEq

/-- Python `'.Editor' in name`. -/
def isEditorName (name : String) : Bool :=
  subOccurs ".Editor" name

/-- Python `'.Testing' in name or '.Test' in name`. -/
def isTestName (name : String) : Bool :=
  subOccurs ".Testing" name || subOccurs ".Test" name

/-- The dependency loop of the Editor branch: keep `dep` when it is a known
non-Editor assembly whose dependencies point back at `name`. -/
def editorPick (asKeys : List String) (graph : Dict (List String))
    (name : String) : List String → List String
  | [] => []
  | dep :: rest =>
    if dep ∈ asKeys ∧ isEditorName dep = false ∧ name ∈ dictGet graph dep [] then
      (name ++ " <-> " ++ dep) :: editorPick asKeys graph name rest
    else editorPick asKeys graph name rest

/-- The dependency loop of the Testing branch. -/
def testPick (asKeys : List String) (graph : Dict (List String))
    (name : String) : List String → List String
  | [] => []
  | dep :: rest =>
    if dep ∈ asKeys ∧ isTestName dep = false ∧ name ∈ dictGet graph dep [] then
      (name ++ " <-> " ++ dep) :: testPick asKeys graph name rest
    else testPick asKeys graph name rest

/-- Per-assembly contribution to `editor_runtime_cycles`. -/
def editorContrib (asKeys : List String) (graph : Dict (List String))
    (p : String × GInfo) : List String :=
  if isEditorName p.1 then editorPick asKeys graph p.1 p.2.references else []

/-- Per-assembly contribution to `test_production_cycles`. -/
def testContrib (asKeys : List String) (graph : Dict (List String))
    (p : String × GInfo) : List String :=
  if isTestName p.1 then testPick asKeys graph p.1 p.2.references else []

/-- `AssemblyDependencyAnalyzer.analyze_dependency_violations`.  The source
appends to each category list while iterating the assemblies in order, so
each list equals the concatenation of the per-assembly contributions;
`circular_core_dependencies` and `missing_dependencies` are never appended
to. -/
def analyze_dependency_violations (A : Analyzer) : GViolations :=
  { editor_runtime_cycles :=
      (A.assemblies.map (editorContrib (dictKeys A.assemblies) A.graph)).flatten,
    test_production_cycles :=
      (A.assemblies.map (testContrib (dictKeys A.assemblies) A.graph)).flatten,
    circular_core_dependencies := [],
    missing_dependencies := [] }

/-- Python `repr` of a list of strings, as interpolated by the f-strings in
`generate_fix_recommendations` (`\x27` is the ASCII apostrophe). -/
def pyStrList (l : List String) : String :=
  "[" ++ String.intercalate ", " (l.map (fun s => "\x27" ++ s ++ "\x27")) ++ "]"

/-- The per-cycle block of `generate_fix_recommendations` (`i` is the
1-based index from `enumerate(cycles, 1)`). -/
def cycleBlock (ic : Nat × List String) : List String :=
  let i := ic.1 + 1
  let cycle := ic.2
  let core_assemblies := cycle.filter (fun a => subOccurs "Core" a)
  let editor_assemblies := cycle.filter (fun a => subOccurs "Editor" a)
  let test_assemblies :=
    cycle.filter (fun a => subOccurs "Testing" a || subOccurs "Test" a)
  ["\n   Cycle " ++ toString i ++ ": " ++ String.intercalate " -> " cycle,
   "   Analysis:"]
  ++ (if core_assemblies ≠ [] then
        ["     - Core assemblies in cycle: " ++ pyStrList core_assemblies]
      else [])
  ++ (if editor_assemblies ≠ [] then
        ["     - Editor assemblies in cycle: " ++ pyStrList editor_assemblies]
      else [])
  ++ (if test_assemblies ≠ [] then
        ["     - Test assemblies in cycle: " ++ pyStrList test_assemblies]
      else [])
  ++ ["   Suggested fixes:"]
  ++ (if editor_assemblies ≠ [] ∧
         (cycle.filter (fun a => subOccurs "Editor" a = false)).length > 0 then
        ["     - Move shared code between Editor and Runtime to a separate shared assembly",
         "     - Use interfaces and dependency injection instead of direct references"]
      else [])
  ++ (if test_assemblies ≠ [] then
        ["     - Test assemblies should only reference production code, never the reverse",
         "     - Move test utilities to a separate TestUtilities assembly"]
      else [])
  ++ (if "Assembly-CSharp" ∈ cycle then
        ["     - Move code out of Assembly-CSharp into specific assemblies",
         "     - Assembly-CSharp should be minimal and only contain scene-specific code"]
      else [])

/-- One violation section: the dict key transformed by
`.replace('_', ' ').title()` followed by its items (empty categories are
skipped). -/
def violBlock (title : String) (items : List String) : List String :=
  if items ≠ [] then
    ("\n   " ++ title ++ ":") :: items.map (fun it => "     - " ++ it)
  else []

/-- `AssemblyDependencyAnalyzer.generate_fix_recommendations`. -/
def generate_fix_recommendations (cycles : List (List String))
    (v : GViolations) : List String :=
  ["=== CIRCULAR DEPENDENCY FIX RECOMMENDATIONS ===\n"]
  ++ (if cycles ≠ [] then
        "1. DETECTED CIRCULAR DEPENDENCY CYCLES:" ::
          (cycles.enum.map cycleBlock).flatten
      else [])
  ++ ["\n2. SPECIFIC VIOLATIONS DETECTED:"]
  ++ violBlock "Editor Runtime Cycles" v.editor_runtime_cycles
  ++ violBlock "Test Production Cycles" v.test_production_cycles
  ++ violBlock "Circular Core Dependencies" v.circular_core_dependencies
  ++ violBlock "Missing Dependencies" v.missing_dependencies
  ++ ["\n3. GENERAL RECOMMENDATIONS:",
      "   - Follow dependency hierarchy: Core <- Data <- Systems <- UI <- Testing",
      "   - Use interfaces and events for loose coupling",
      "   - Move shared code to lower-level assemblies",
      "   - Keep Assembly-CSharp minimal",
      "   - Editor assemblies should not be referenced by runtime assemblies",
      "   - Test assemblies should only reference production assemblies"]

/-- The structured output of one `run_analysis` pass over a built graph. -/
structure PipelineOutput where
  sccs : List (List String)
  cycles : List (List String)
  violations : GViolations
  recommendations : List String
deriving Repr, DecidableEq

/-- The analysis core of `run_analysis` on an already-built graph: SCCs,
cycles, violations, then recommendations (the source passes `scc_list` as
the `cycles` argument of `generate_fix_recommendations`). -/
def run_pipeline (A : Analyzer) : PipelineOutput :=
  let scc_list := find_strongly_connected_components A
  let cycles := detect_circular_dependencies A
  let violations := analyze_dependency_violations A
  let recommendations := generate_fix_recommendations scc_list violations
  ⟨scc_list, cycles, violations, recommendations⟩

end Genetics

namespace Acd

/-!  Embedding of `src/analyze_circular_deps.py`. -/

/-- The first pass of `build_dependency_graph`: `assemblies[name] = asmdef`
for every parsed file, in file order (a parsed declaration is its
`(name, references)` payload). -/
def acdAssemblies (decls : List (String × List String)) :
    Dict (List String) :=
  decls.foldl (fun m d => dictInsert m d.1 d.2) []

/-- `graph[k].append(v)` on a `defaultdict(list)`. -/
def dictAppend (d : Dict (List String)) (k v : String) : Dict (List String) :=
  dictInsert d k (dictGet d k [] ++ [v])

/-- The second pass of `build_dependency_graph`: keep only references to
assemblies in the project. -/
def buildGraph (assemblies : Dict (List String)) : Dict (List String) :=
  assemblies.foldl
    (fun g p =>
      p.2.foldl
        (fun g ref =>
          if ref ∈ dictKeys assemblies then dictAppend g p.1 ref else g)
        g)
    []

/-- `analyze_circular_deps.build_dependency_graph`. -/
def build_dependency_graph (decls : List (String × List String)) :
    Dict (List String) × Dict (List String) :=
  let assemblies := acdAssemblies decls
  (assemblies, buildGraph assemblies)

/-- `analyze_circular_deps.find_strongly_connected_components`: Tarjan over
the built graph, following every listed successor, rooted at the graph
keys. -/
def find_strongly_connected_components (graph : Dict (List String)) :
    List (List String) :=
  tarjanRun graph (fun _ => true) (dictKeys graph)

end Acd

/-!  ## Concrete input graphs used by the claim theorems -/

/-- Declarations `A→B, B→[D,A], D→E, E→D`:
two strongly connected components `{A,B}` and `{D,E}`. -/
def declsTwoSccs : List (String × Genetics.GInfo) :=
  [("A", ⟨["B"], []⟩), ("B", ⟨["D", "A"], []⟩),
   ("D", ⟨["E"], []⟩), ("E", ⟨["D"], []⟩)]

/-- The same four modules as a `DependencyAnalyzer.dependency_graph` dict. -/
def toolsGraphTwoSccs : Dict (List String) :=
  [("A", ["B"]), ("B", ["D", "A"]), ("D", ["E"]), ("E", ["D"])]

/-- Graph `A→B, B→A, C→A`: one SCC `{A,B}` plus an acyclic entry point `C`. -/
def toolsGraphStale : Dict (List String) :=
  [("A", ["B"]), ("B", ["A"]), ("C", ["A"])]

/-- Single module `X` listing itself. -/
def declsSelfLoop : List (String × Genetics.GInfo) :=
  [("X", ⟨["X"], []⟩)]

/-- The self-loop as a `DependencyAnalyzer` graph. -/
def toolsGraphSelfLoop : Dict (List String) :=
  [("X", ["X"])]

/-- Scenario 3 of the specification with its literal module names:
`Test.X → Prod.Y`, `Prod.Y → Test.X`. -/
def declsScenario3 : List (String × Genetics.GInfo) :=
  [("Test.X", ⟨["Prod.Y"], []⟩), ("Prod.Y", ⟨["Test.X"], []⟩)]

/-- Scenario 4 of the specification: `A → External.Lib` with
`External.Lib` undeclared. -/
def declsScenario4 : List (String × Genetics.GInfo) :=
  [("A", ⟨["External.Lib"], []⟩)]

/-!  ## C1 — completeness of the cycle enumerator w.r.t. the SCC finder -/

/-- C1: the claim "for every SCC with ≥2 members, the cycle enumerator
finds at least one cycle whose node set is a subset of that SCC" fails on
the code.  On `A→B, B→[D,A], D→E, E→D` the SCC finder returns the two
components `{D,E}` and `{A,B}`, but `DependencyAnalyzer.find_cycles`
returns only `[D,E,D]`: its `dfs` returns `True` through every recursive
call as soon as the first cycle is found, so the cycle `A→B→A` of the SCC
`{A,B}` is never reported, although all four modules are marked visited.
This contradicts the function's own docstring ("Find all cycles in the
dependency graph"). -/
theorem claim1_completeness_fails :
    Tools.find_cycles toolsGraphTwoSccs = [["D", "E", "D"]] ∧
    Genetics.find_strongly_connected_components
        (Genetics.mkAnalyzer declsTwoSccs) = [["E", "D"], ["B", "A"]] ∧
    (Tools.find_cycles toolsGraphTwoSccs).filter
        (fun c => c.all (fun x => decide (x ∈ ["B", "A"]))) = [] := by
  decide

/-!  ## C2 — containment of cycles in exactly one SCC -/

/-- C2 counterexample: "there exists exactly one SCC containing every node
of the cycle" fails for self-loops.  On `X→X` the cycle enumerator returns
the cycle `[X,X]`, but the SCC finder suppresses the singleton component
`{X}`, so the number of returned SCCs containing every node of the cycle
is zero, not one. -/
theorem claim2_exactly_one_fails :
    ["X", "X"] ∈ Tools.find_cycles toolsGraphSelfLoop ∧
    (Genetics.find_strongly_connected_components
        (Genetics.mkAnalyzer declsSelfLoop)).countP
        (fun s => (["X", "X"] : List String).all (fun x => decide (x ∈ s))) = 0 := by
  decide

/-!  ## C3 — well-formedness of emitted cycles -/

/-- C3: the claim "every sequence emitted by the cycle enumerator is a
well-formed cycle" fails on the code.  On `A→B, B→A, C→A` the first cycle
`[A,B,A]` leaves `rec_stack = {A,B}` and `path = [A,B]` stale (the early
`return True` skips the cleanup), so the later start `C` emits
`[A,B,C,A]`, which is not a cycle: `B→C` is not an edge.  This
contradicts the function's own docstring ("Find all cycles in the
dependency graph"). -/
theorem claim3_wellformed_fails :
    Tools.find_cycles toolsGraphStale = [["A", "B", "A"], ["A", "B", "C", "A"]] ∧
    ["A", "B", "C", "A"] ∈ Tools.find_cycles toolsGraphStale ∧
    ¬ WellFormedCycle toolsGraphStale ["A", "B", "C", "A"] := by
  decide

/-!  ## C4 — the self-loop scenario -/

/-- C4 counterexample: a module `X` listing itself yields the cycle `[X,X]`
and a suppressed singleton SCC as claimed, but no Self-dependency
violation: `analyze_dependency_violations` has no self-dependency rule and
returns four empty categories on this input, so no violation of any kind
names `X`. -/
theorem claim4_no_self_dependency_violation :
    Genetics.detect_circular_dependencies (Genetics.mkAnalyzer declsSelfLoop)
      = [["X", "X"]] ∧
    Genetics.find_strongly_connected_components
        (Genetics.mkAnalyzer declsSelfLoop) = [] ∧
    Genetics.analyze_dependency_violations (Genetics.mkAnalyzer declsSelfLoop)
      = ⟨[], [], [], []⟩ := by
  decide

/-!  ## C5 — the test/production category-cycle scenario -/

/-- C5 counterexample: on the specification's own scenario input
`Test.X→Prod.Y, Prod.Y→Test.X` the classifier reports no violation at
all — in particular not the claimed Category Cycle violation — because the
code classifies "test" assemblies by the substring checks
`'.Testing' in name or '.Test' in name`, and `"Test.X"` contains neither
(there is no dot before `Test`). -/
theorem claim5_literal_names_fail :
    Genetics.isTestName "Test.X" = false ∧
    Genetics.analyze_dependency_violations (Genetics.mkAnalyzer declsScenario3)
      = ⟨[], [], [], []⟩ := by
  decide

/-!  ## C6 — the dangling-reference scenario -/

/-- C6: on `A → External.Lib` with `External.Lib` undeclared the analysis
does return zero cycles, but it returns zero Dangling Reference violations
rather than the claimed one: the `missing_dependencies` category is
initialized and never appended to anywhere in
`analyze_dependency_violations`, so it is empty for every input. -/
theorem claim6_dangling_never_reported :
    Genetics.detect_circular_dependencies (Genetics.mkAnalyzer declsScenario4)
      = [] ∧
    (Genetics.analyze_dependency_violations (Genetics.mkAnalyzer declsScenario4))
      = ⟨[], [], [], []⟩ ∧
    ∀ A : Genetics.Analyzer,
      (Genetics.analyze_dependency_violations A).missing_dependencies = [] := by
  refine ⟨by decide, by decide, fun A => rfl⟩

/-!  ## C7 — duplicate module declarations -/

/-- C7 counterexample: `build_dependency_graph` silently applies
last-declaration-wins.  On two `X` declarations with conflicting
dependency sets it neither fails nor records anything: its entire output
is equal to the output for an input that never contained the earlier
declaration, and the earlier dependency set `["Y"]` is gone. -/
theorem claim7_silent_overwrite :
    Acd.build_dependency_graph [("X", ["Y"]), ("Y", []), ("X", [])]
      = Acd.build_dependency_graph [("X", []), ("Y", [])] ∧
    dictGet (Acd.build_dependency_graph
        [("X", ["Y"]), ("Y", []), ("X", [])]).1 "X" ["sentinel"] = [] := by
  decide

/-- Python-dict assignment collapses consecutive writes to the same key. -/
theorem dictInsert_dictInsert {V : Type} (m : Dict V) (k : String) (v1 v2 : V) :
    dictInsert (dictInsert m k v1) k v2 = dictInsert m k v2 := by
  induction m with
  | nil => simp [dictInsert]
  | cons p rest ih =>
    by_cases h : p.1 = k
    · simp [dictInsert, h]
    · simp [dictInsert, h, ih]

/-!  ## C8 — determinism of the full pipeline -/

/-- C8: the full pipeline (cycle enumeration, SCC finding, violation
classification, recommendation generation) is a pure function of the built
analyzer state: none of the passes reads or writes anything besides
`assemblies` and `dependency_graph`, which they do not mutate, so two runs
over the same unchanged graph produce identical ordered output. -/
theorem claim8_pipeline_deterministic (A B : Genetics.Analyzer) (h : A = B) :
    Genetics.run_pipeline A = Genetics.run_pipeline B := by
  rw [h]

/-- Witness for C8 at a concrete two-module graph. -/
theorem claim8_pipeline_deterministic_witness :
    Genetics.run_pipeline (Genetics.mkAnalyzer declsTwoSccs)
      = Genetics.run_pipeline (Genetics.mkAnalyzer declsTwoSccs) :=
  claim8_pipeline_deterministic (Genetics.mkAnalyzer declsTwoSccs)
    (Genetics.mkAnalyzer declsTwoSccs) rfl

/-!  ## C10 — at most one cycle per outer-loop start -/

/-- One call of the `dfs` closure of `find_cycles` either returns `False`
with the cycle list untouched, or returns `True` having appended exactly
one nonempty cycle: every code path that appends a cycle immediately
returns `True`, and `True` short-circuits every enclosing neighbor loop. -/
theorem tools_step_cycles (g : Dict (List String)) :
    ∀ (fuel : Nat) (inp : Sum String (List String)) (s : Tools.FCState),
      ((Tools.step g fuel inp s).1 = false ∧
        (Tools.step g fuel inp s).2.cycles = s.cycles) ∨
      ((Tools.step g fuel inp s).1 = true ∧
        ∃ c, c ≠ [] ∧ (Tools.step g fuel inp s).2.cycles = s.cycles ++ [c]) := by
  intro fuel
  induction fuel with
  | zero => intro inp s; left; exact ⟨rfl, rfl⟩
  | succ n ih =>
    intro inp s
    match inp with
    | Sum.inl node =>
      by_cases h1 : node ∈ s.recStack
      · right
        refine ⟨by simp [Tools.step, h1], s.path.drop (idxOfFirst node s.path) ++ [node],
          by simp, by simp [Tools.step, h1]⟩
      · by_cases h2 : node ∈ s.visited
        · left; constructor <;> simp [Tools.step, h1, h2]
        · set s1 : Tools.FCState :=
            { s with visited := setAdd s.visited node,
                     recStack := s.recStack ++ [node],
                     path := s.path ++ [node] } with hs1
          rcases hrec : Tools.step g n (Sum.inr (dictGet g node [])) s1 with ⟨b, s2⟩
          rcases ih (Sum.inr (dictGet g node [])) s1 with ⟨hb, hc⟩ | ⟨hb, c, hne, hc⟩
          · left
            rw [hrec] at hb hc
            simp only at hb hc; subst hb
            constructor <;> simp [Tools.step, h1, h2, ← hs1, hrec, hc]
          · right
            rw [hrec] at hb hc
            simp only at hb hc; subst hb
            refine ⟨by simp [Tools.step, h1, h2, ← hs1, hrec], c, hne, ?_⟩
            simp [Tools.step, h1, h2, ← hs1, hrec, hc]
    | Sum.inr [] => left; constructor <;> simp [Tools.step]
    | Sum.inr (nb :: rest) =>
      by_cases hk : nb ∈ dictKeys g
      · rcases hrec : Tools.step g n (Sum.inl nb) s with ⟨b, s'⟩
        rcases ih (Sum.inl nb) s with ⟨hb, hc⟩ | ⟨hb, c, hne, hc⟩
        · rw [hrec] at hb hc
          simp only at hb hc; subst hb
          rcases ih (Sum.inr rest) s' with ⟨hb2, hc2⟩ | ⟨hb2, c2, hne2, hc2⟩
          · left
            constructor <;> simp [Tools.step, hk, hrec, hb2, hc2, hc]
          · right
            refine ⟨by simp [Tools.step, hk, hrec, hb2], c2, hne2, ?_⟩
            simp [Tools.step, hk, hrec, hc2, hc]
        · rw [hrec] at hb hc
          simp only at hb hc; subst hb
          right
          refine ⟨by simp [Tools.step, hk, hrec], c, hne, ?_⟩
          simp [Tools.step, hk, hrec, hc]
      · exact (ih (Sum.inr rest) s).imp
          (fun h => ⟨by simp [Tools.step, hk, h.1], by simp [Tools.step, hk, h.2]⟩)
          (fun h => ⟨by simp [Tools.step, hk, h.1],
            h.2.choose, h.2.choose_spec.1,
            by simpa [Tools.step, hk] using h.2.choose_spec.2⟩)

/-- The outer loop of `find_cycles` grows the cycle list by at most one
per start module. -/
theorem tools_findCyclesAux_bound (g : Dict (List String)) :
    ∀ (roots : List String) (s : Tools.FCState),
      (Tools.findCyclesAux g roots s).cycles.length ≤
        s.cycles.length + roots.length := by
  intro roots
  induction roots with
  | nil => intro s; simp [Tools.findCyclesAux]
  | cons a rest ih =>
    intro s
    by_cases hv : a ∈ s.visited
    · calc (Tools.findCyclesAux g (a :: rest) s).cycles.length
          = (Tools.findCyclesAux g rest s).cycles.length := by
            simp [Tools.findCyclesAux, hv]
        _ ≤ s.cycles.length + rest.length := ih s
        _ ≤ s.cycles.length + (a :: rest).length := by
            simp only [List.length_cons]; omega
    · have hstep := tools_step_cycles g (fuelOf List.length g) (Sum.inl a) s
      set s' := (Tools.step g (fuelOf List.length g) (Sum.inl a) s).2 with hs'
      have hlen : s'.cycles.length ≤ s.cycles.length + 1 := by
        rcases hstep with ⟨_, hc⟩ | ⟨_, c, _, hc⟩
        · rw [hc]; omega
        · rw [hc]; simp
      have h1 : Tools.findCyclesAux g (a :: rest) s
          = Tools.findCyclesAux g rest s' := by
        simp [Tools.findCyclesAux, hv, ← hs']
      have h2 := ih s'
      rw [h1]
      simp only [List.length_cons]
      omega

/-- C10: `DependencyAnalyzer.find_cycles` appends at most one cycle per
outer-loop start module (`dfs` returns `True` through all recursive calls
once the first cycle is found), so the total number of returned cycles
never exceeds the number of modules in the graph. -/
theorem claim10_cycle_count_bound (g : Dict (List String)) :
    (Tools.find_cycles g).length ≤ g.length := by
  have h := tools_findCyclesAux_bound g (dictKeys g) ⟨[], [], [], []⟩
  simpa [Tools.find_cycles, dictKeys] using h

/-!  ## C2 amended — every cycle lies in at most one returned SCC

The components returned by Tarjan's algorithm are pairwise disjoint
(each node is indexed at most once, hence pushed on the stack at most
once, hence popped into at most one component), and every emitted cycle is
nonempty, so at most one returned component can contain all of its
nodes. -/

/-- `popComponent` splits the stack. -/
theorem popComponent_append (node : String) :
    ∀ st : List String,
      (popComponent node st).1 ++ (popComponent node st).2 = st := by
  intro st
  induction st with
  | nil => simp [popComponent]
  | cons w rest ih =>
    by_cases h : w = node
    · simp [popComponent, h]
    · simp [popComponent, h, ih]

/-- Membership in the keys of a dict after an assignment. -/
theorem mem_dictKeys_dictInsert {V : Type} (d : Dict V) (k x : String) (v : V) :
    x ∈ dictKeys (dictInsert d k v) ↔ x = k ∨ x ∈ dictKeys d := by
  induction d with
  | nil => simp [dictInsert, dictKeys]
  | cons p rest ih =>
    by_cases h : p.1 = k
    · subst h
      simp [dictInsert, dictKeys]
    · simp only [dictInsert, dictKeys, h, if_false, List.map_cons, List.mem_cons] at ih ⊢
      tauto

/-- Disjointness invariant of the Tarjan state: no node occurs twice among
stack plus emitted components, and every such node has been indexed. -/
def TInv (st : TarjanState) : Prop :=
  (st.stack ++ st.sccs.flatten).Nodup ∧
  ∀ x ∈ st.stack ++ st.sccs.flatten, x ∈ dictKeys st.index

/-- The successor loop preserves the disjointness invariant whenever the
recursive `strongconnect` does. -/
theorem tarjanNbs_TInv (internal : String → Bool)
    (sc : String → TarjanState → TarjanState) (node : String)
    (hsc : ∀ nb st, TInv st → nb ∉ dictKeys st.index → TInv (sc nb st)) :
    ∀ (nbs : List String) (st : TarjanState), TInv st →
      TInv (tarjanNbs internal sc node nbs st) := by
  intro nbs
  induction nbs with
  | nil => intro st h; exact h
  | cons nb rest ih =>
    intro st h
    rw [tarjanNbs]
    apply ih
    by_cases hint : internal nb
    · by_cases hidx : nb ∈ dictKeys st.index
      · by_cases hstk : dictGet st.on_stack nb false
        · simp only [hint, hidx, hstk, if_true]
          exact ⟨h.1, h.2⟩
        · simp only [hint, hidx, hstk, if_true, if_false]
          exact h
      · simp only [hint, hidx, if_true, if_false]
        have h1 := hsc nb st h hidx
        exact ⟨h1.1, h1.2⟩
    · simp only [hint, if_false]
      exact h

/-- `tarjanStep` preserves the disjointness invariant, provided a
`strongconnect(node)` call is only made on an unindexed node (which is
what every call site checks). -/
theorem tarjanStep_TInv (adj : Dict (List String)) (internal : String → Bool) :
    ∀ (fuel : Nat) (node : String) (st : TarjanState),
      TInv st → node ∉ dictKeys st.index →
      TInv (tarjanStep adj internal fuel node st) := by
  intro fuel
  induction fuel with
  | zero => intro node st h _; exact h
  | succ n ih =>
    intro node st hinv hfresh
    · have hnotin : node ∉ st.stack ++ st.sccs.flatten := fun hmem =>
        hfresh (hinv.2 node hmem)
      set st1 : TarjanState :=
        { st with index := dictInsert st.index node st.counter,
                  lowlinks := dictInsert st.lowlinks node st.counter,
                  counter := st.counter + 1,
                  stack := node :: st.stack,
                  on_stack := dictInsert st.on_stack node true } with hst1
      have hinv1 : TInv st1 := by
        constructor
        · have h0 : (node :: (st.stack ++ st.sccs.flatten)).Nodup :=
            List.nodup_cons.mpr ⟨hnotin, hinv.1⟩
          simpa [hst1] using h0
        · intro x hx
          rcases (by simpa [hst1] using hx : x = node ∨
              x ∈ st.stack ++ st.sccs.flatten) with hx | hx
          · simp [hst1, mem_dictKeys_dictInsert, hx]
          · have := hinv.2 x hx
            simp [hst1, mem_dictKeys_dictInsert, this]
      have hinv2 : TInv (tarjanNbs internal (tarjanStep adj internal n) node
          (dictGet adj node []) st1) :=
        tarjanNbs_TInv internal (tarjanStep adj internal n) node
          (fun nb stx hx hfx => ih nb stx hx hfx) (dictGet adj node []) st1 hinv1
      set st2 := tarjanNbs internal (tarjanStep adj internal n) node
        (dictGet adj node []) st1 with hst2
      show TInv (tarjanStep adj internal (n + 1) node st)
      rw [tarjanStep]
      simp only [← hst1, ← hst2]
      by_cases hpop : dictGet st2.lowlinks node 0 = dictGet st2.index node 0
      · simp only [hpop, if_true]
        set pr := popComponent node st2.stack with hpr
        have hsplit : pr.1 ++ pr.2 = st2.stack := popComponent_append node st2.stack
        have hnd : (pr.1 ++ pr.2 ++ st2.sccs.flatten).Nodup := by
          rw [hsplit]; exact hinv2.1
        have hmem : ∀ x ∈ pr.1 ++ pr.2 ++ st2.sccs.flatten,
            x ∈ dictKeys st2.index := by
          rw [hsplit]; exact hinv2.2
        by_cases hlen : pr.1.length > 1
        · simp only [hlen, if_true]
          constructor
          · have h1 : (pr.1 ++ (pr.2 ++ st2.sccs.flatten)).Nodup := by
              simpa [List.append_assoc] using hnd
            have h2 : ((pr.2 ++ st2.sccs.flatten) ++ pr.1).Nodup :=
              h1.perm List.perm_append_comm
            simpa [List.append_assoc] using h2
          · intro x hx
            apply hmem
            simp only [List.mem_append, List.flatten_append, List.flatten_cons,
              List.flatten_nil, List.append_nil] at hx ⊢
            tauto
        · simp only [hlen, if_false]
          constructor
          · have h1 : (pr.1 ++ (pr.2 ++ st2.sccs.flatten)).Nodup := by
              simpa [List.append_assoc] using hnd
            exact List.Nodup.sublist (List.sublist_append_right pr.1 _) h1
          · intro x hx
            apply hmem
            simp only [List.mem_append] at hx ⊢
            tauto
      · simp only [hpop, if_false]
        exact hinv2

/-- The components returned by `tarjanRun` are globally duplicate-free:
no node appears in two returned components (nor twice in one). -/
theorem tarjanRun_flatten_nodup (adj : Dict (List String))
    (internal : String → Bool) (roots : List String) :
    (tarjanRun adj internal roots).flatten.Nodup := by
  have main : ∀ (rs : List String) (st : TarjanState), TInv st →
      TInv (rs.foldl
        (fun st r =>
          if r ∈ dictKeys st.index then st
          else tarjanStep adj internal (tarjanFuel adj roots) r st)
        st) := by
    intro rs
    induction rs with
    | nil => intro st h; exact h
    | cons r rest ih =>
      intro st h
      simp only [List.foldl_cons]
      by_cases hr : r ∈ dictKeys st.index
      · simp only [hr, if_true]; exact ih st h
      · simp only [hr, if_false]
        exact ih _ (tarjanStep_TInv adj internal (tarjanFuel adj roots)
          r st h hr)
  have h0 : TInv ⟨0, [], [], [], [], []⟩ := by
    constructor
    · simp
    · intro x hx; simp at hx
  have h := main roots ⟨0, [], [], [], [], []⟩ h0
  exact (h.1).of_append_right

/-- A nonempty list contained in two entries of a globally duplicate-free
list of lists pins down a single entry: the count of containing entries is
at most one. -/
theorem countP_cover_le_one (c : List String) (x : String) (hx : x ∈ c) :
    ∀ sccs : List (List String), sccs.flatten.Nodup →
      sccs.countP (fun s => c.all (fun y => decide (y ∈ s))) ≤ 1 := by
  intro sccs
  induction sccs with
  | nil => intro _; simp
  | cons s rest ih =>
    intro hnd
    have hnd' : rest.flatten.Nodup := by
      simpa [List.flatten_cons] using hnd.of_append_right
    rw [List.countP_cons]
    by_cases hp : c.all (fun y => decide (y ∈ s)) = true
    · have hxs : x ∈ s := by
        have := List.all_eq_true.mp hp x hx
        simpa using this
      have hdisj : ∀ y ∈ s, y ∉ rest.flatten := by
        have := List.nodup_append.mp (by simpa [List.flatten_cons] using hnd)
        intro y hy
        exact this.2.2 hy
      have hrest : rest.countP (fun s => c.all (fun y => decide (y ∈ s))) = 0 := by
        rw [List.countP_eq_zero]
        intro t ht hpt
        have hxt : x ∈ t := by
          have := List.all_eq_true.mp hpt x hx
          simpa using this
        exact hdisj x hxs (List.mem_flatten.mpr ⟨t, ht, hxt⟩)
      simp [hp, hrest]
    · simp only [hp, if_false, Nat.add_zero]
      exact ih hnd'

/-- Every sequence emitted by `find_cycles` is nonempty (it always ends
with the repeated start node). -/
theorem tools_find_cycles_nonempty (g : Dict (List String)) :
    ∀ c ∈ Tools.find_cycles g, c ≠ [] := by
  have main : ∀ (roots : List String) (s : Tools.FCState),
      (∀ c ∈ s.cycles, c ≠ []) →
      ∀ c ∈ (Tools.findCyclesAux g roots s).cycles, c ≠ [] := by
    intro roots
    induction roots with
    | nil => intro s h; simpa [Tools.findCyclesAux] using h
    | cons a rest ih =>
      intro s h
      by_cases hv : a ∈ s.visited
      · simpa [Tools.findCyclesAux, hv] using ih s h
      · have hstep := tools_step_cycles g (fuelOf List.length g) (Sum.inl a) s
        set s' := (Tools.step g (fuelOf List.length g) (Sum.inl a) s).2 with hs'
        have h' : ∀ c ∈ s'.cycles, c ≠ [] := by
          rcases hstep with ⟨_, hc⟩ | ⟨_, c0, hne0, hc⟩
          · rw [hc]; exact h
          · rw [hc]
            intro c hcmem
            rcases List.mem_append.mp hcmem with hcm | hcm
            · exact h c hcm
            · rw [List.mem_singleton.mp hcm]; exact hne0
        simpa [Tools.findCyclesAux, hv, ← hs'] using ih s' h'
  intro c hc
  exact main (dictKeys g) ⟨[], [], [], []⟩ (by intro c h; simp at h) c hc

/-- C2 as amended: for every declaration set and every cycle returned by
`DependencyAnalyzer.find_cycles`, at most one component returned by
`AssemblyDependencyAnalyzer.find_strongly_connected_components` contains
every node of the cycle (for a self-loop the count is zero, since the
singleton component is suppressed). -/
theorem claim2_at_most_one_scc (decls : List (String × Genetics.GInfo))
    (c : List String)
    (hc : c ∈ Tools.find_cycles
      (Tools.load (decls.map (fun d => (d.1, d.2.references))))) :
    (Genetics.find_strongly_connected_components
        (Genetics.mkAnalyzer decls)).countP
      (fun s => c.all (fun y => decide (y ∈ s))) ≤ 1 := by
  have hne : c ≠ [] := tools_find_cycles_nonempty _ c hc
  rcases List.exists_mem_of_ne_nil c hne with ⟨x, hx⟩
  exact countP_cover_le_one c x hx _
    (tarjanRun_flatten_nodup _ _ _)

/-- Witness for C2 at the self-loop input: the cycle `[X,X]` is returned
and the number of returned SCCs containing all of its nodes is at most
one (here zero). -/
theorem claim2_at_most_one_scc_witness :
    (["X", "X"] ∈ Tools.find_cycles
      (Tools.load (declsSelfLoop.map (fun d => (d.1, d.2.references))))) ∧
    (Genetics.find_strongly_connected_components
        (Genetics.mkAnalyzer declsSelfLoop)).countP
      (fun s => (["X", "X"] : List String).all (fun y => decide (y ∈ s))) ≤ 1 :=
  ⟨by decide, claim2_at_most_one_scc declsSelfLoop ["X", "X"] (by decide)⟩

/-!  ## C9 — a DAG yields zero cycles and zero SCCs

The two halves are proved from the same acyclicity hypothesis: in every
traversal state reachable on an acyclic graph the recursion path is a walk
along graph edges, so the membership tests that would emit a cycle (for
`find_cycles`) or keep a non-root node on the Tarjan stack (for the SCC
finder) can never fire. -/

/-- Any member of a `Chain' r` walk reaches the walk's last element. -/
theorem chain'_reflTransGen {r : String → String → Prop} :
    ∀ l : List String, List.Chain' r l → ∀ x ∈ l, ∀ lastH,
      l.getLast? = some lastH → Relation.ReflTransGen r x lastH := by
  intro l
  induction l with
  | nil => intro _ x hx; simp at hx
  | cons a t ih =>
    intro hch x hx lastH hlast
    match t with
    | [] =>
      rcases List.mem_singleton.mp hx with rfl
      simp only [List.getLast?_singleton, Option.some.injEq] at hlast
      rw [hlast]
    | b :: t' =>
      have h1 := (List.chain'_cons.mp hch).1
      have h2 := (List.chain'_cons.mp hch).2
      rw [List.getLast?_cons_cons] at hlast
      rcases List.mem_cons.mp hx with rfl | hx'
      · exact Relation.ReflTransGen.head h1
          (ih h2 b (List.mem_cons_self b t') lastH hlast)
      · exact ih h2 x hx' lastH hlast

/-- A walk whose last element steps back to one of its members closes a
cycle of the step relation. -/
theorem chain'_closes_cycle {r : String → String → Prop} (l : List String)
    (node lastH : String) (hch : List.Chain' r l) (hmem : node ∈ l)
    (hlast : l.getLast? = some lastH) (hedge : r lastH node) :
    Relation.TransGen r node node :=
  Relation.TransGen.tail' (chain'_reflTransGen l hch node hmem lastH hlast) hedge

/-- Precondition of a `dfs` step of `find_cycles`: the recursion path is a
walk along known edges, `rec_stack` mirrors it, and the pending input is
connected to it (a fresh call target is an edge-successor of the path's
last element; a neighbor list belongs to the path's last element). -/
def ToolsPre (g : Dict (List String)) :
    Sum String (List String) → Tools.FCState → Prop
  | Sum.inl node, s =>
      s.recStack = s.path ∧ List.Chain' (EdgeP g) s.path ∧ node ∈ dictKeys g ∧
      (s.path = [] ∨ ∃ lastH, s.path.getLast? = some lastH ∧ EdgeP g lastH node)
  | Sum.inr nbs, s =>
      s.recStack = s.path ∧ List.Chain' (EdgeP g) s.path ∧
      ∃ node, s.path.getLast? = some node ∧ node ∈ dictKeys g ∧
        ∀ nb ∈ nbs, nb ∈ dictGet g node []

/-- On an acyclic graph every `dfs` step of `find_cycles` returns `False`,
restores `path` and `rec_stack`, and emits no cycle. -/
theorem tools_step_dag (g : Dict (List String)) (hg : Acyclic g) :
    ∀ (fuel : Nat) (inp : Sum String (List String)) (s : Tools.FCState),
      ToolsPre g inp s →
      (Tools.step g fuel inp s).1 = false ∧
      (Tools.step g fuel inp s).2.path = s.path ∧
      (Tools.step g fuel inp s).2.recStack = s.recStack ∧
      (Tools.step g fuel inp s).2.cycles = s.cycles := by
  intro fuel
  induction fuel with
  | zero => intro inp s _; exact ⟨rfl, rfl, rfl, rfl⟩
  | succ n ih =>
    intro inp s hpre
    match inp with
    | Sum.inl node =>
      obtain ⟨hrs, hw, hkey, hlink⟩ := hpre
      have h1 : node ∉ s.recStack := by
        intro hmem
        have hmemp : node ∈ s.path := hrs ▸ hmem
        rcases hlink with hnil | ⟨lastH, hlast, hedge⟩
        · rw [hnil] at hmemp; simp at hmemp
        · exact hg node (chain'_closes_cycle s.path node lastH hw hmemp hlast hedge)
      by_cases h2 : node ∈ s.visited
      · refine ⟨?_, ?_, ?_, ?_⟩ <;> simp [Tools.step, h1, h2]
      · set s1 : Tools.FCState :=
          { s with visited := setAdd s.visited node,
                   recStack := s.recStack ++ [node],
                   path := s.path ++ [node] } with hs1
        have hpre1 : ToolsPre g (Sum.inr (dictGet g node [])) s1 := by
          refine ⟨by simp [hs1, hrs], ?_, node, ?_, hkey, fun nb hnb => hnb⟩
          · rw [hs1]
            refine List.chain'_append.mpr ⟨hw, List.chain'_singleton node, ?_⟩
            intro x hx y hy
            simp only [List.head?_cons, Option.mem_def, Option.some.injEq] at hy
            subst hy
            rcases hlink with hnil | ⟨lastH, hlast, hedge⟩
            · rw [hnil] at hx; simp at hx
            · rw [hlast] at hx
              cases hx
              exact hedge
          · rw [hs1]; exact List.getLast?_concat s.path
        have hrec := ih (Sum.inr (dictGet g node [])) s1 hpre1
        rcases hres : Tools.step g n (Sum.inr (dictGet g node [])) s1 with ⟨b, s2⟩
        rw [hres] at hrec
        obtain ⟨hb, hpath, hrstk, hcyc⟩ := hrec
        simp only at hb hpath hrstk hcyc
        subst hb
        have herase : (s.recStack ++ [node]).erase node = s.recStack := by
          rw [List.erase_append_right _ (by simpa using h1)]
          simp
        have hstep_eq : Tools.step g (n + 1) (Sum.inl node) s
            = (false, { s2 with recStack := s2.recStack.erase node,
                                path := s2.path.dropLast }) := by
          simp only [Tools.step, h1, h2, if_false, ite_false, ← hs1, hres]
        refine ⟨by rw [hstep_eq], ?_, ?_, ?_⟩
        · rw [hstep_eq]
          show s2.path.dropLast = s.path
          rw [hpath]
          exact List.dropLast_concat
        · rw [hstep_eq]
          show s2.recStack.erase node = s.recStack
          rw [hrstk]
          exact herase
        · rw [hstep_eq]
          exact hcyc
    | Sum.inr [] =>
      refine ⟨?_, ?_, ?_, ?_⟩ <;> simp [Tools.step]
    | Sum.inr (nb :: rest) =>
      obtain ⟨hrs, hw, node, hlast, hkey, hsub⟩ := hpre
      by_cases hk : nb ∈ dictKeys g
      · have hpre1 : ToolsPre g (Sum.inl nb) s :=
          ⟨hrs, hw, hk, Or.inr ⟨node, hlast,
            hkey, hk, hsub nb (List.mem_cons_self nb rest)⟩⟩
        have hrec := ih (Sum.inl nb) s hpre1
        rcases hres : Tools.step g n (Sum.inl nb) s with ⟨b, s'⟩
        rw [hres] at hrec
        obtain ⟨hb, hpath, hrstk, hcyc⟩ := hrec
        simp only at hb hpath hrstk hcyc
        subst hb
        have hpre2 : ToolsPre g (Sum.inr rest) s' := by
          refine ⟨by rw [hpath, hrstk, hrs], by rw [hpath]; exact hw,
            node, by rw [hpath]; exact hlast, hkey,
            fun x hx => hsub x (List.mem_cons_of_mem nb hx)⟩
        have hrec2 := ih (Sum.inr rest) s' hpre2
        obtain ⟨hb2, hpath2, hrstk2, hcyc2⟩ := hrec2
        refine ⟨?_, ?_, ?_, ?_⟩ <;>
          simp [Tools.step, hk, hres, hb2, hpath2, hpath, hrstk2, hrstk, hcyc2, hcyc]
      · have hpre2 : ToolsPre g (Sum.inr rest) s :=
          ⟨hrs, hw, node, hlast, hkey, fun x hx => hsub x (List.mem_cons_of_mem nb hx)⟩
        have hrec2 := ih (Sum.inr rest) s hpre2
        obtain ⟨hb2, hpath2, hrstk2, hcyc2⟩ := hrec2
        refine ⟨?_, ?_, ?_, ?_⟩ <;> simp [Tools.step, hk, hb2, hpath2, hrstk2, hcyc2]

/-- Lookup after a dict assignment. -/
theorem dictLookup_dictInsert {V : Type} (d : Dict V) (k x : String) (v : V) :
    dictLookup (dictInsert d k v) x = if k = x then some v else dictLookup d x := by
  induction d with
  | nil => simp [dictInsert, dictLookup]
  | cons p rest ih =>
    by_cases h : p.1 = k
    · subst h
      by_cases hx : p.1 = x
      · simp [dictInsert, dictLookup, hx]
      · simp [dictInsert, dictLookup, hx]
    · by_cases hx : p.1 = x
      · subst hx
        have hkx : ¬ k = p.1 := fun he => h he.symm
        simp [dictInsert, dictLookup, h, hkx]
      · simp [dictInsert, dictLookup, h, hx, ih]

/-- Absent keys are exactly the `none` lookups. -/
theorem dictLookup_eq_none_iff {V : Type} (d : Dict V) (x : String) :
    dictLookup d x = none ↔ x ∉ dictKeys d := by
  induction d with
  | nil => simp [dictLookup, dictKeys]
  | cons p rest ih =>
    by_cases h : p.1 = x
    · simp [dictLookup, dictKeys, h]
    · have h' : ¬ x = p.1 := fun he => h he.symm
      simp only [dictLookup, dictKeys, h, if_false, List.map_cons, List.mem_cons,
        not_or] at ih ⊢
      rw [ih]
      simp [h']

/-- Present keys have a `some` lookup. -/
theorem mem_dictKeys_iff_lookup {V : Type} (d : Dict V) (x : String) :
    x ∈ dictKeys d ↔ ∃ v, dictLookup d x = some v := by
  rcases hv : dictLookup d x with _ | v
  · rw [dictLookup_eq_none_iff] at hv
    simp [hv]
  · have : x ∈ dictKeys d := by
      by_contra hmem
      rw [← dictLookup_eq_none_iff] at hmem
      rw [hmem] at hv
      cases hv
    simp [this]

/-- A `get` with a present key returns the stored value. -/
theorem dictGet_eq_of_lookup {V : Type} (d : Dict V) (k : String) (dflt v : V)
    (h : dictLookup d k = some v) : dictGet d k dflt = v := by
  simp [dictGet, h]

/-- Every member of a `get` result is a reference listed by some entry
with the looked-up key. -/
theorem dictGet_mem_exists (adj : Dict (List String)) (k v : String)
    (h : v ∈ dictGet adj k []) : ∃ p ∈ adj, p.1 = k ∧ v ∈ p.2 := by
  induction adj with
  | nil => simp [dictGet, dictLookup] at h
  | cons p rest ih =>
    by_cases hk : p.1 = k
    · refine ⟨p, List.mem_cons_self p rest, hk, ?_⟩
      simpa [dictGet, dictLookup, hk] using h
    · have h' : v ∈ dictGet rest k [] := by
        simpa [dictGet, dictLookup, hk] using h
      rcases ih h' with ⟨q, hq, hq1, hq2⟩
      exact ⟨q, List.mem_cons_of_mem p hq, hq1, hq2⟩

/-- With duplicate-free keys, every entry is the one its key looks up. -/
theorem dictLookup_of_mem_nodup {V : Type} (d : Dict V)
    (hnd : (dictKeys d).Nodup) (p : String × V) (hp : p ∈ d) :
    dictLookup d p.1 = some p.2 := by
  induction d with
  | nil => cases hp
  | cons q rest ih =>
    rcases List.mem_cons.mp hp with rfl | hp'
    · simp [dictLookup]
    · have hq : q.1 ≠ p.1 := by
        intro he
        have : q.1 ∈ dictKeys rest := by
          rw [he]
          exact List.mem_map.mpr ⟨p, hp', rfl⟩
        exact (List.nodup_cons.mp (by simpa [dictKeys] using hnd)).1 this
      have hnd' : (dictKeys rest).Nodup :=
        (List.nodup_cons.mp (by simpa [dictKeys] using hnd)).2
      simp [dictLookup, hq, ih hnd' hp']

/-- The step relation actually followed by the embedded Tarjan traversal:
a listed successor passing the `internal` filter. -/
def TRel (adj : Dict (List String)) (internal : String → Bool)
    (u v : String) : Prop :=
  internal v = true ∧ v ∈ dictGet adj u []

/-- Structural invariant of the Tarjan state maintained on an acyclic
graph: `on_stack` mirrors the stack, indices are below the counter, stack
nodes are indexed, and the stack (top first) is the active call chain, so
consecutive stack entries are linked by a traversal step from the lower
one to the upper one. -/
def TDag (adj : Dict (List String)) (internal : String → Bool)
    (st : TarjanState) : Prop :=
  (∀ x, (dictGet st.on_stack x false = true ↔ x ∈ st.stack)) ∧
  (∀ x v, dictLookup st.index x = some v → v < st.counter) ∧
  (∀ x ∈ st.stack, x ∈ dictKeys st.index) ∧
  List.Chain' (fun a b => TRel adj internal b a) st.stack

/-- Number of candidate nodes not yet indexed; the recursion-depth
potential of `strongconnect`. -/
def unseen (U : List String) (st : TarjanState) : Nat :=
  (U.filter (fun u => decide (dictLookup st.index u = none))).length

/-- Filtering by a weaker predicate keeps at least as many elements. -/
theorem filter_length_le_of_imp {l : List String} {p q : String → Bool}
    (h : ∀ x ∈ l, q x = true → p x = true) :
    (l.filter q).length ≤ (l.filter p).length := by
  induction l with
  | nil => simp
  | cons a t ih =>
    have ht : ∀ x ∈ t, q x = true → p x = true :=
      fun x hx => h x (List.mem_cons_of_mem a hx)
    by_cases hq : q a = true
    · have hp : p a = true := h a (List.mem_cons_self a t) hq
      simp only [List.filter_cons, hq, hp, if_true, List.length_cons]
      exact Nat.succ_le_succ (ih ht)
    · simp only [List.filter_cons, hq, if_false]
      by_cases hp : p a = true
      · simp only [hp, if_true, List.length_cons]
        exact Nat.le_succ_of_le (ih ht)
      · simp only [hp, if_false]
        exact ih ht

/-- Filtering by a strictly weaker predicate (witnessed inside the list)
keeps strictly more elements. -/
theorem filter_length_lt_of_imp {l : List String} {p q : String → Bool}
    (h : ∀ x ∈ l, q x = true → p x = true) (w : String) (hw : w ∈ l)
    (hpw : p w = true) (hqw : q w = false) :
    (l.filter q).length < (l.filter p).length := by
  induction l with
  | nil => cases hw
  | cons a t ih =>
    rcases List.mem_cons.mp hw with rfl | hw'
    · simp only [List.filter_cons, hqw, hpw, Bool.false_eq_true, if_false, if_true,
        List.length_cons]
      exact Nat.lt_succ_of_le (filter_length_le_of_imp
        (fun x hx => h x (List.mem_cons_of_mem w hx)))
    · have ht : ∀ x ∈ t, q x = true → p x = true :=
        fun x hx => h x (List.mem_cons_of_mem a hx)
      by_cases hq : q a = true
      · have hp : p a = true := h a (List.mem_cons_self a t) hq
        simp only [List.filter_cons, hq, hp, if_true, List.length_cons]
        exact Nat.succ_lt_succ (ih ht hw')
      · simp only [List.filter_cons, hq, if_false]
        by_cases hp : p a = true
        · simp only [hp, if_true, List.length_cons]
          exact Nat.lt_succ_of_lt (ih ht hw')
        · simp only [hp, if_false]
          exact ih ht hw'


/-- Old index entries survive a traversal segment. -/
def IndexKeep (st st' : TarjanState) : Prop :=
  ∀ x v, dictLookup st.index x = some v → dictLookup st'.index x = some v

/-- Lowlink entries of previously indexed nodes keep their values. -/
def LowKeep (st st' : TarjanState) : Prop :=
  ∀ x ∈ dictKeys st.index, dictLookup st'.lowlinks x = dictLookup st.lowlinks x

/-- `IndexKeep` implies the unseen potential does not grow. -/
theorem unseen_le_of_indexKeep (U : List String) (st st' : TarjanState)
    (h : IndexKeep st st') : unseen U st' ≤ unseen U st := by
  apply filter_length_le_of_imp
  intro x _ hq
  simp only [decide_eq_true_eq] at hq ⊢
  rcases hx : dictLookup st.index x with _ | v
  · rfl
  · rw [h x v hx] at hq
    cases hq

/-- `get` after an assignment. -/
theorem dictGet_dictInsert {V : Type} (d : Dict V) (k x : String) (v dflt : V) :
    dictGet (dictInsert d k v) x dflt = if k = x then v else dictGet d x dflt := by
  rw [dictGet, dictLookup_dictInsert]
  by_cases h : k = x
  · simp [h]
  · simp [h, dictGet]

/-- The heart of the SCC half of C9: on a graph whose traversal relation
is acyclic, every `strongconnect(node)` call leaves the stack and the
component list exactly as it found them — the node's lowlink never drops
below its index (the only lowering steps would close a directed cycle),
so the node pops exactly itself as a singleton component, which is not
reported. -/
theorem tarjanStep_dag (adj : Dict (List String)) (internal : String → Bool)
    (U : List String) (hU : ∀ p ∈ adj, ∀ v ∈ p.2, v ∈ U)
    (hac : ∀ x, ¬ Relation.TransGen (TRel adj internal) x x) :
    ∀ (fuel : Nat) (node : String) (st : TarjanState),
      TDag adj internal st →
      dictLookup st.index node = none →
      node ∈ U →
      unseen U st < fuel →
      (st.stack = [] ∨ ∃ top, st.stack.head? = some top ∧
        TRel adj internal top node) →
      TDag adj internal (tarjanStep adj internal fuel node st) ∧
      (tarjanStep adj internal fuel node st).stack = st.stack ∧
      (tarjanStep adj internal fuel node st).sccs = st.sccs ∧
      IndexKeep st (tarjanStep adj internal fuel node st) ∧
      LowKeep st (tarjanStep adj internal fuel node st) ∧
      dictLookup (tarjanStep adj internal fuel node st).index node
        = some st.counter ∧
      dictLookup (tarjanStep adj internal fuel node st).lowlinks node
        = some st.counter ∧
      st.counter < (tarjanStep adj internal fuel node st).counter := by
  intro fuel
  induction fuel with
  | zero => intro node st _ _ _ hlt _; exact absurd hlt (Nat.not_lt_zero _)
  | succ n ih =>
    intro node st hdag hfresh hnodeU hfuel hlink
    set st1 : TarjanState :=
      { st with index := dictInsert st.index node st.counter,
                lowlinks := dictInsert st.lowlinks node st.counter,
                counter := st.counter + 1,
                stack := node :: st.stack,
                on_stack := dictInsert st.on_stack node true } with hst1
    have hidx1 : dictLookup st1.index node = some st.counter := by
      show dictLookup (dictInsert st.index node st.counter) node = some st.counter
      rw [dictLookup_dictInsert]; simp
    have hlow1 : dictLookup st1.lowlinks node = some st.counter := by
      show dictLookup (dictInsert st.lowlinks node st.counter) node = some st.counter
      rw [dictLookup_dictInsert]; simp
    have hkeep1 : IndexKeep st st1 := by
      intro x v hx
      have hne : node ≠ x := by
        intro he; rw [← he, hfresh] at hx; cases hx
      show dictLookup (dictInsert st.index node st.counter) x = some v
      rw [dictLookup_dictInsert, if_neg hne]; exact hx
    have hlowkeep1 : LowKeep st st1 := by
      intro x hxk
      rcases (mem_dictKeys_iff_lookup _ _).mp hxk with ⟨v, hv⟩
      have hne : node ≠ x := by
        intro he; rw [← he, hfresh] at hv; cases hv
      show dictLookup (dictInsert st.lowlinks node st.counter) x
        = dictLookup st.lowlinks x
      rw [dictLookup_dictInsert, if_neg hne]
    have hnodestack : node ∉ st.stack := by
      intro hmem
      rcases (mem_dictKeys_iff_lookup _ _).mp (hdag.2.2.1 node hmem) with ⟨v, hv⟩
      rw [hfresh] at hv; cases hv
    have hdag1 : TDag adj internal st1 := by
      refine ⟨?_, ?_, ?_, ?_⟩
      · intro x
        show dictGet (dictInsert st.on_stack node true) x false = true ↔
          x ∈ node :: st.stack
        rw [dictGet_dictInsert]
        by_cases hx : node = x
        · simp [hx]
        · simp only [hx, if_false, List.mem_cons]
          rw [hdag.1 x]
          constructor
          · exact fun h => Or.inr h
          · rintro (rfl | h)
            · exact absurd rfl hx
            · exact h
      · intro x v hv
        have hv2 : dictLookup (dictInsert st.index node st.counter) x = some v := hv
        rw [dictLookup_dictInsert] at hv2
        by_cases he : node = x
        · rw [if_pos he] at hv2
          injection hv2 with h
          show v < st.counter + 1
          omega
        · rw [if_neg he] at hv2
          have := hdag.2.1 x v hv2
          show v < st.counter + 1
          omega
      · intro x hx
        rcases List.mem_cons.mp hx with rfl | hx'
        · exact (mem_dictKeys_iff_lookup _ _).mpr ⟨st.counter, hidx1⟩
        · rcases (mem_dictKeys_iff_lookup _ _).mp (hdag.2.2.1 x hx') with ⟨v, hv⟩
          exact (mem_dictKeys_iff_lookup _ _).mpr ⟨v, hkeep1 x v hv⟩
      · show List.Chain' (fun a b => TRel adj internal b a) (node :: st.stack)
        rcases hstk : st.stack with _ | ⟨top, rest⟩
        · exact List.chain'_singleton node
        · rcases hlink with hnil | ⟨top', hhead, hrel⟩
          · rw [hstk] at hnil; cases hnil
          · rw [hstk] at hhead
            simp only [List.head?_cons, Option.some.injEq] at hhead
            subst hhead
            refine List.chain'_cons.mpr ⟨hrel, ?_⟩
            rw [← hstk]
            exact hdag.2.2.2
    have hunseen1 : unseen U st1 < n := by
      have himp : ∀ x ∈ U,
          decide (dictLookup st1.index x = none) = true →
          decide (dictLookup st.index x = none) = true := by
        intro x _ hq
        simp only [decide_eq_true_eq] at hq ⊢
        rcases hx : dictLookup st.index x with _ | v
        · rfl
        · rw [hkeep1 x v hx] at hq; cases hq
      have hlt : unseen U st1 < unseen U st := by
        apply filter_length_lt_of_imp himp node hnodeU
        · simp [hfresh]
        · simp [hidx1]
      omega
    have inner : ∀ (nd : String) (nbs : List String) (stI : TarjanState),
        TDag adj internal stI →
        (∃ rest, stI.stack = nd :: rest) →
        (∃ i, dictLookup stI.index nd = some i ∧
          dictLookup stI.lowlinks nd = some i) →
        (∀ nb ∈ nbs, nb ∈ dictGet adj nd []) →
        unseen U stI < n →
        TDag adj internal
          (tarjanNbs internal (tarjanStep adj internal n) nd nbs stI) ∧
        (tarjanNbs internal (tarjanStep adj internal n) nd nbs stI).stack
          = stI.stack ∧
        (tarjanNbs internal (tarjanStep adj internal n) nd nbs stI).sccs
          = stI.sccs ∧
        IndexKeep stI (tarjanNbs internal (tarjanStep adj internal n) nd nbs stI) ∧
        LowKeep stI (tarjanNbs internal (tarjanStep adj internal n) nd nbs stI) ∧
        stI.counter
          ≤ (tarjanNbs internal (tarjanStep adj internal n) nd nbs stI).counter := by
      intro nd nbs
      induction nbs with
      | nil =>
        intro stI hdagI _ _ _ _
        rw [tarjanNbs]
        exact ⟨hdagI, rfl, rfl, fun x v h => h, fun x _ => rfl, Nat.le_refl _⟩
      | cons nb rest ihn =>
        intro stI hdagI hstkI hsyncI hsubI hunI
        by_cases hint : internal nb
        · by_cases hidxB : nb ∈ dictKeys stI.index
          · by_cases honstk : dictGet stI.on_stack nb false = true
            · exfalso
              obtain ⟨restS, hstack⟩ := hstkI
              have hnbstk : nb ∈ stI.stack := (hdagI.1 nb).mp honstk
              have hchain : List.Chain' (TRel adj internal) stI.stack.reverse :=
                List.chain'_reverse.mpr hdagI.2.2.2
              have hmemrev : nb ∈ stI.stack.reverse := List.mem_reverse.mpr hnbstk
              have hlastrev : stI.stack.reverse.getLast? = some nd := by
                rw [List.getLast?_reverse, hstack]; rfl
              have hedge : TRel adj internal nd nb :=
                ⟨hint, hsubI nb (List.mem_cons_self nb rest)⟩
              exact hac nb (chain'_closes_cycle _ nb nd hchain hmemrev hlastrev hedge)
            · have hcell : tarjanNbs internal (tarjanStep adj internal n) nd
                  (nb :: rest) stI
                  = tarjanNbs internal (tarjanStep adj internal n) nd rest stI := by
                rw [tarjanNbs]
                simp only [hint, hidxB, if_true, honstk, if_false, Bool.false_eq_true]
              rw [hcell]
              exact ihn stI hdagI hstkI hsyncI
                (fun x hx => hsubI x (List.mem_cons_of_mem nb hx)) hunI
          · have hfreshnb : dictLookup stI.index nb = none :=
              (dictLookup_eq_none_iff _ _).mpr hidxB
            have hnbU : nb ∈ U := by
              rcases dictGet_mem_exists adj nd nb
                (hsubI nb (List.mem_cons_self nb rest)) with ⟨p, hp, hp1, hp2⟩
              exact hU p hp nb hp2
            obtain ⟨restS, hstack⟩ := hstkI
            have hlinknb : stI.stack = [] ∨ ∃ top, stI.stack.head? = some top ∧
                TRel adj internal top nb :=
              Or.inr ⟨nd, by rw [hstack]; rfl,
                hint, hsubI nb (List.mem_cons_self nb rest)⟩
            have hchild := ih nb stI hdagI hfreshnb hnbU hunI hlinknb
            set stC := tarjanStep adj internal n nb stI with hstC
            obtain ⟨hdagC, hstkC, hsccC, hikC, hlkC, hidxC, hlowC, hcntC⟩ := hchild
            obtain ⟨i, hsyncIi, hsyncIl⟩ := hsyncI
            have hndkeys : nd ∈ dictKeys stI.index :=
              (mem_dictKeys_iff_lookup _ _).mpr ⟨i, hsyncIi⟩
            have hgetn : dictGet stC.lowlinks nd 0 = i := by
              apply dictGet_eq_of_lookup
              rw [hlkC nd hndkeys]
              exact hsyncIl
            have hgetnb : dictGet stC.lowlinks nb 0 = stI.counter :=
              dictGet_eq_of_lookup _ _ _ _ hlowC
            have hilt : i < stI.counter := hdagI.2.1 nd i hsyncIi
            have hmin : min i stI.counter = i := Nat.min_eq_left (Nat.le_of_lt hilt)
            set llD := dictInsert stC.lowlinks nd
              (min (dictGet stC.lowlinks nd 0) (dictGet stC.lowlinks nb 0)) with hllD
            set stD : TarjanState := { stC with lowlinks := llD } with hstD
            have hcell : tarjanNbs internal (tarjanStep adj internal n) nd
                (nb :: rest) stI
                = tarjanNbs internal (tarjanStep adj internal n) nd rest stD := by
              rw [tarjanNbs]
              simp only [hint, hidxB, if_true, if_false, ← hstC, ← hllD, ← hstD]
            have hlowD : dictLookup stD.lowlinks nd = some i := by
              show dictLookup llD nd = some i
              rw [hllD, dictLookup_dictInsert, if_pos rfl, hgetn, hgetnb, hmin]
            have hdagD : TDag adj internal stD :=
              ⟨hdagC.1, hdagC.2.1, hdagC.2.2.1, hdagC.2.2.2⟩
            have hikD : IndexKeep stI stD := hikC
            have hlkD : LowKeep stI stD := by
              intro x hxk
              by_cases hxe : x = nd
              · subst hxe
                rw [hlowD, hsyncIl]
              · have h1 : dictLookup stD.lowlinks x = dictLookup stC.lowlinks x := by
                  show dictLookup llD x = _
                  rw [hllD, dictLookup_dictInsert, if_neg (fun he => hxe he.symm)]
                rw [h1, hlkC x hxk]
            have hstkD : stD.stack = stI.stack := hstkC
            have hsccD : stD.sccs = stI.sccs := hsccC
            have hsyncD : ∃ j, dictLookup stD.index nd = some j ∧
                dictLookup stD.lowlinks nd = some j :=
              ⟨i, hikC nd i hsyncIi, hlowD⟩
            have hunD : unseen U stD < n :=
              Nat.lt_of_le_of_lt (unseen_le_of_indexKeep U stI stD hikD) hunI
            rw [hcell]
            have hrest := ihn stD hdagD ⟨restS, by rw [hstkD, hstack]⟩ hsyncD
              (fun x hx => hsubI x (List.mem_cons_of_mem nb hx)) hunD
            obtain ⟨hdagR, hstkR, hsccR, hikR, hlkR, hcntR⟩ := hrest
            refine ⟨hdagR, hstkR.trans hstkD, hsccR.trans hsccD,
              fun x v h => hikR x v (hikD x v h), ?_, ?_⟩
            · intro x hxk
              have hxkD : x ∈ dictKeys stD.index := by
                rcases (mem_dictKeys_iff_lookup _ _).mp hxk with ⟨v, hv⟩
                exact (mem_dictKeys_iff_lookup _ _).mpr ⟨v, hikD x v hv⟩
              rw [hlkR x hxkD, hlkD x hxk]
            · calc stI.counter ≤ stC.counter := Nat.le_of_lt hcntC
                _ = stD.counter := rfl
                _ ≤ _ := hcntR
        · have hcell : tarjanNbs internal (tarjanStep adj internal n) nd
              (nb :: rest) stI
              = tarjanNbs internal (tarjanStep adj internal n) nd rest stI := by
            rw [tarjanNbs]
            simp only [hint, if_false, Bool.false_eq_true]
          rw [hcell]
          exact ihn stI hdagI hstkI hsyncI
            (fun x hx => hsubI x (List.mem_cons_of_mem nb hx)) hunI
    have hinner := inner node (dictGet adj node []) st1 hdag1
      ⟨st.stack, rfl⟩ ⟨st.counter, hidx1, hlow1⟩ (fun nb h => h) hunseen1
    set st2 := tarjanNbs internal (tarjanStep adj internal n) node
      (dictGet adj node []) st1 with hst2
    obtain ⟨hdag2, hstk2, hscc2, hik2, hlk2, hcnt2⟩ := hinner
    have hidx2 : dictLookup st2.index node = some st.counter :=
      hik2 node st.counter hidx1
    have hlow2 : dictLookup st2.lowlinks node = some st.counter := by
      rw [hlk2 node ((mem_dictKeys_iff_lookup _ _).mpr ⟨st.counter, hidx1⟩)]
      exact hlow1
    have hpop : dictGet st2.lowlinks node 0 = dictGet st2.index node 0 := by
      rw [dictGet_eq_of_lookup _ _ _ _ hlow2, dictGet_eq_of_lookup _ _ _ _ hidx2]
    have hpopc : popComponent node st2.stack = ([node], st.stack) := by
      rw [hstk2]
      show popComponent node (node :: st.stack) = ([node], st.stack)
      simp [popComponent]
    have hstep_eq : tarjanStep adj internal (n + 1) node st
        = { st2 with stack := st.stack,
                     on_stack := dictInsert st2.on_stack node false } := by
      rw [tarjanStep]
      simp only [← hst1, ← hst2, hpop, if_true, hpopc]
      simp
    rw [hstep_eq]
    refine ⟨?_, rfl, hscc2.trans (by rw [hst1]), ?_, ?_, hidx2, hlow2, ?_⟩
    · refine ⟨?_, hdag2.2.1, ?_, ?_⟩
      · intro x
        show dictGet (dictInsert st2.on_stack node false) x false = true ↔
          x ∈ st.stack
        rw [dictGet_dictInsert]
        by_cases hx : node = x
        · subst hx
          simp [hnodestack]
        · simp only [hx, if_false]
          rw [hdag2.1 x, hstk2]
          show x ∈ node :: st.stack ↔ x ∈ st.stack
          simp only [List.mem_cons]
          constructor
          · rintro (rfl | h)
            · exact absurd rfl hx
            · exact h
          · exact fun h => Or.inr h
      · intro x hx
        exact hdag2.2.2.1 x (by rw [hstk2]; exact List.mem_cons_of_mem node hx)
      · have := hdag2.2.2.2
        rw [hstk2] at this
        exact this.tail
    · exact fun x v h => hik2 x v (hkeep1 x v h)
    · intro x hxk
      have hxk1 : x ∈ dictKeys st1.index := by
        rcases (mem_dictKeys_iff_lookup _ _).mp hxk with ⟨v, hv⟩
        exact (mem_dictKeys_iff_lookup _ _).mpr ⟨v, hkeep1 x v hv⟩
      show dictLookup st2.lowlinks x = dictLookup st.lowlinks x
      rw [hlk2 x hxk1, hlowkeep1 x hxk]
    · show st.counter < st2.counter
      calc st.counter < st.counter + 1 := Nat.lt_succ_self _
        _ = st1.counter := rfl
        _ ≤ st2.counter := hcnt2

/-- On a graph whose traversal relation is acyclic, `tarjanRun` reports no
components: every root call pops itself as an unreported singleton. -/
theorem tarjanRun_dag (adj : Dict (List String)) (internal : String → Bool)
    (roots : List String)
    (hac : ∀ x, ¬ Relation.TransGen (TRel adj internal) x x) :
    tarjanRun adj internal roots = [] := by
  set U := roots ++ (adj.map (fun p => p.2)).flatten with hu
  have hU : ∀ p ∈ adj, ∀ v ∈ p.2, v ∈ U := by
    intro p hp v hv
    rw [hu]
    exact List.mem_append.mpr (Or.inr
      (List.mem_flatten.mpr ⟨p.2, List.mem_map.mpr ⟨p, hp, rfl⟩, hv⟩))
  have hfuel : ∀ st : TarjanState, unseen U st < tarjanFuel adj roots := by
    intro st
    have h1 : unseen U st ≤ U.length := List.length_filter_le _ _
    have h2 : U.length
        = roots.length + ((adj.map (fun p => p.2)).flatten).length := by
      rw [hu]; simp
    have h3 : ((adj.map (fun p => p.2)).flatten).length
        = (adj.map (fun p => p.2.length)).sum := by
      rw [List.length_flatten, List.map_map]
      rfl
    rw [tarjanFuel]
    omega
  have main : ∀ (rs : List String), (∀ r ∈ rs, r ∈ U) →
      ∀ st : TarjanState, TDag adj internal st → st.stack = [] →
      (rs.foldl
        (fun st r =>
          if r ∈ dictKeys st.index then st
          else tarjanStep adj internal (tarjanFuel adj roots) r st)
        st).sccs = st.sccs := by
    intro rs
    induction rs with
    | nil => intro _ st _ _; rfl
    | cons r rest ihr =>
      intro hrs st hdag hstk
      simp only [List.foldl_cons]
      by_cases hr : r ∈ dictKeys st.index
      · simp only [hr, if_true]
        exact ihr (fun x hx => hrs x (List.mem_cons_of_mem r hx)) st hdag hstk
      · simp only [hr, if_false]
        have hfresh : dictLookup st.index r = none :=
          (dictLookup_eq_none_iff _ _).mpr hr
        have h := tarjanStep_dag adj internal U hU hac (tarjanFuel adj roots)
          r st hdag hfresh (hrs r (List.mem_cons_self r rest)) (hfuel st)
          (Or.inl hstk)
        rw [ihr (fun x hx => hrs x (List.mem_cons_of_mem r hx)) _ h.1
          (h.2.1.trans hstk)]
        exact h.2.2.1
  have hdag0 : TDag adj internal ⟨0, [], [], [], [], []⟩ := by
    refine ⟨?_, ?_, ?_, ?_⟩
    · intro x
      constructor
      · intro h; cases h
      · intro h; cases h
    · intro x v h; cases h
    · intro x h; cases h
    · exact List.chain'_nil
  have h := main roots (fun r hr => by rw [hu]; exact List.mem_append.mpr (Or.inl hr))
    ⟨0, [], [], [], [], []⟩ hdag0 rfl
  simpa [tarjanRun] using h

/-- Every edge of the graph built by the second pass of
`analyze_circular_deps.build_dependency_graph` is a dependency edge
between known modules of the assembly dict. -/
theorem acd_buildGraph_sub (g : Dict (List String))
    (hnd : (dictKeys g).Nodup) :
    ∀ u v, v ∈ dictGet (Acd.buildGraph g) u [] → EdgeP g u v := by
  have inner : ∀ (p : String × List String), p ∈ g →
      ∀ (rs : List String), (∀ r ∈ rs, r ∈ p.2) →
      ∀ acc, (∀ u v, v ∈ dictGet acc u [] → EdgeP g u v) →
      ∀ u v, v ∈ dictGet (rs.foldl (fun acc2 ref =>
        if ref ∈ dictKeys g then Acd.dictAppend acc2 p.1 ref else acc2) acc) u []
        → EdgeP g u v := by
    intro p hp rs
    induction rs with
    | nil => intro _ acc hacc; exact hacc
    | cons r rest ihr =>
      intro hrs acc hacc
      simp only [List.foldl_cons]
      apply ihr (fun x hx => hrs x (List.mem_cons_of_mem r hx))
      by_cases hk : r ∈ dictKeys g
      · simp only [hk, if_true]
        intro u v hv
        have hsplit : dictGet (Acd.dictAppend acc p.1 r) u []
            = if p.1 = u then dictGet acc p.1 [] ++ [r] else dictGet acc u [] := by
          rw [Acd.dictAppend, dictGet_dictInsert]
        rw [hsplit] at hv
        by_cases hu : p.1 = u
        · rw [if_pos hu] at hv
          rcases List.mem_append.mp hv with hv | hv
          · exact hacc u v (by rw [← hu]; exact hv)
          · rcases List.mem_singleton.mp hv with rfl
            subst hu
            refine ⟨List.mem_map.mpr ⟨p, hp, rfl⟩, hk, ?_⟩
            rw [dictGet_eq_of_lookup g p.1 [] p.2
              (dictLookup_of_mem_nodup g hnd p hp)]
            exact hrs v (List.mem_cons_self v rest)
        · rw [if_neg hu] at hv
          exact hacc u v hv
      · simp only [hk, if_false]
        exact hacc
  have outer : ∀ (ps : List (String × List String)), (∀ p ∈ ps, p ∈ g) →
      ∀ acc, (∀ u v, v ∈ dictGet acc u [] → EdgeP g u v) →
      ∀ u v, v ∈ dictGet (ps.foldl (fun acc2 p => p.2.foldl (fun acc3 ref =>
        if ref ∈ dictKeys g then Acd.dictAppend acc3 p.1 ref else acc3) acc2) acc)
        u [] → EdgeP g u v := by
    intro ps
    induction ps with
    | nil => intro _ acc hacc; exact hacc
    | cons p rest ihp =>
      intro hps acc hacc
      simp only [List.foldl_cons]
      exact ihp (fun q hq => hps q (List.mem_cons_of_mem p hq)) _
        (inner p (hps p (List.mem_cons_self p rest)) p.2 (fun r hr => hr) acc hacc)
  intro u v hv
  have hbase : ∀ u v, v ∈ dictGet ([] : Dict (List String)) u [] → EdgeP g u v := by
    intro u v hv
    simp [dictGet, dictLookup] at hv
  exact outer g (fun p hp => hp) [] hbase u v (by simpa [Acd.buildGraph] using hv)

/-- A rank function that strictly decreases along every known edge proves
the graph acyclic; this is how the concrete witnesses discharge the
`Acyclic` hypothesis. -/
theorem acyclic_of_ranked (g : Dict (List String)) (rank : String → Nat)
    (h : ∀ p ∈ g, ∀ v ∈ p.2, v ∈ dictKeys g → rank v < rank p.1) :
    Acyclic g := by
  have hstep : ∀ a b, EdgeP g a b → rank b < rank a := by
    intro a b he
    rcases he with ⟨_, hb, hmem⟩
    rcases dictGet_mem_exists g _ _ hmem with ⟨p, hp, hp1, hp2⟩
    have := h p hp _ hp2 hb
    rw [hp1] at this
    exact this
  have hdec : ∀ a b, Relation.TransGen (EdgeP g) a b → rank b < rank a := by
    intro a b hab
    induction hab with
    | single he => exact hstep _ _ he
    | tail _ he ih => exact Nat.lt_trans (hstep _ _ he) ih
  intro x hx
  exact absurd (hdec x x hx) (Nat.lt_irrefl _)

/-- On an acyclic graph `find_cycles` returns no cycles. -/
theorem tools_find_cycles_dag (g : Dict (List String)) (hg : Acyclic g) :
    Tools.find_cycles g = [] := by
  have main : ∀ (roots : List String), (∀ r ∈ roots, r ∈ dictKeys g) →
      ∀ s : Tools.FCState, s.path = [] → s.recStack = [] →
      (Tools.findCyclesAux g roots s).cycles = s.cycles := by
    intro roots
    induction roots with
    | nil => intro _ s _ _; simp [Tools.findCyclesAux]
    | cons a rest ih =>
      intro hroots s hpath hrstk
      have hka : a ∈ dictKeys g := hroots a (List.mem_cons_self a rest)
      have hrest : ∀ r ∈ rest, r ∈ dictKeys g :=
        fun r hr => hroots r (List.mem_cons_of_mem a hr)
      by_cases hv : a ∈ s.visited
      · simpa [Tools.findCyclesAux, hv] using ih hrest s hpath hrstk
      · have hpre : ToolsPre g (Sum.inl a) s :=
          ⟨by rw [hpath, hrstk], by rw [hpath]; exact List.chain'_nil,
           hka, Or.inl hpath⟩
        have hrec := tools_step_dag g hg (fuelOf List.length g) (Sum.inl a) s hpre
        obtain ⟨_, hpath', hrstk', hcyc'⟩ := hrec
        set s' := (Tools.step g (fuelOf List.length g) (Sum.inl a) s).2 with hs'
        have hrec2 := ih hrest s' (hpath'.trans hpath) (hrstk'.trans hrstk)
        have hstep' : Tools.findCyclesAux g (a :: rest) s
            = Tools.findCyclesAux g rest s' := by
          simp [Tools.findCyclesAux, hv, ← hs']
        rw [hstep', hrec2, hcyc']
  have h := main (dictKeys g) (fun r hr => hr) ⟨[], [], [], []⟩ rfl rfl
  simpa [Tools.find_cycles] using h

/-- C9: on every graph with no directed cycle among known modules
(`Acyclic`; dict keys are duplicate-free, as CPython dicts guarantee),
`DependencyAnalyzer.find_cycles` returns zero cycles and
`analyze_circular_deps.find_strongly_connected_components`, run over the
graph built from the same assembly dict, returns zero components — the
source only reports components of size at least 2. -/
theorem claim9_dag_no_cycles_no_sccs (g : Dict (List String))
    (hnd : (dictKeys g).Nodup) (hg : Acyclic g) :
    Tools.find_cycles g = [] ∧
    Acd.find_strongly_connected_components (Acd.buildGraph g) = [] := by
  constructor
  · exact tools_find_cycles_dag g hg
  · apply tarjanRun_dag
    intro x hx
    apply hg x
    exact hx.mono (fun a b h => acd_buildGraph_sub g hnd a b h.2)

/-- The DAG `A→B, B→C` of Scenario 2. -/
def dagChain : Dict (List String) :=
  [("A", ["B"]), ("B", ["C"]), ("C", [])]

/-- A topological rank for `dagChain`. -/
def dagChainRank (s : String) : Nat :=
  if s = "A" then 2 else if s = "B" then 1 else 0

/-- Witness for C9 at the concrete DAG `A→B, B→C`: both hypotheses hold
and both analyses return nothing. -/
theorem claim9_dag_no_cycles_no_sccs_witness :
    Tools.find_cycles dagChain = [] ∧
    Acd.find_strongly_connected_components (Acd.buildGraph dagChain) = [] :=
  claim9_dag_no_cycles_no_sccs dagChain (by decide)
    (acyclic_of_ranked dagChain dagChainRank (by decide))

/-!  ## C4 amended and C5 amended -/

/-- An exhausted neighbor list leaves the `dfs` state unchanged at any
fuel. -/
theorem dfsStep_inr_nil (A : Genetics.Analyzer) (fuel : Nat)
    (path : List String) (s : Genetics.GDfsState) :
    Genetics.dfsStep A fuel (Sum.inr ([], path)) s = s := by
  cases fuel <;> rfl

/-- C4 as amended: for every single-module input in which the module lists
itself as a dependency, the analysis yields exactly the cycle `[x, x]`,
the singleton SCC is not included in the returned SCC list, and no
violation of any kind is produced — the classifier has no self-dependency
rule and all four of its categories are empty. -/
theorem claim4_self_loop_amended (x : String) :
    Genetics.detect_circular_dependencies (Genetics.mkAnalyzer [(x, ⟨[x], []⟩)])
      = [[x, x]] ∧
    Genetics.find_strongly_connected_components
      (Genetics.mkAnalyzer [(x, ⟨[x], []⟩)]) = [] ∧
    Genetics.analyze_dependency_violations (Genetics.mkAnalyzer [(x, ⟨[x], []⟩)])
      = ⟨[], [], [], []⟩ := by
  refine ⟨?_, ?_, ?_⟩
  · simp [Genetics.detect_circular_dependencies, Genetics.detectAux,
      Genetics.dfsStep, Genetics.mkAnalyzer, Genetics.load,
      Genetics.build_dependency_graph, Genetics.dictAddSet, dictInsert, dictGet,
      dictLookup, dictKeys, setAdd, idxOfFirst, Genetics.detectFuel,
      dfsStep_inr_nil, List.erase_cons_head]
  · simp [Genetics.find_strongly_connected_components, tarjanRun, tarjanStep,
      tarjanNbs, tarjanFuel, popComponent, Genetics.mkAnalyzer, Genetics.load,
      Genetics.build_dependency_graph, Genetics.dictAddSet, dictInsert, dictGet,
      dictLookup, dictKeys, setAdd]
  · by_cases hE : Genetics.isEditorName x <;> by_cases hT : Genetics.isTestName x <;>
      simp [Genetics.analyze_dependency_violations, Genetics.editorContrib,
        Genetics.testContrib, Genetics.editorPick, Genetics.testPick,
        Genetics.mkAnalyzer, Genetics.load, Genetics.build_dependency_graph,
        Genetics.dictAddSet, dictInsert, dictGet, dictLookup, dictKeys, setAdd,
        hE, hT]

/-- C5 as amended: for the two-module scenario where the
mutually-referencing modules `t` and `p` are such that the code's
substring classification (`'.Testing' in name or '.Test' in name`) marks
`t` as a test assembly and not `p`, the classifier produces exactly one
test/production Category Cycle violation, the single entry naming both
modules.  (With the specification's literal names `Test.X`/`Prod.Y`
nothing is produced, since `"Test.X"` contains neither substring.) -/
theorem claim5_category_cycle_amended (t p : String)
    (hT : Genetics.isTestName t = true) (hP : Genetics.isTestName p = false) :
    (Genetics.analyze_dependency_violations
      (Genetics.mkAnalyzer [(t, ⟨[p], []⟩), (p, ⟨[t], []⟩)])).test_production_cycles
      = [t ++ " <-> " ++ p] := by
  have hne : ¬ (t = p) := fun he => by rw [he, hP] at hT; cases hT
  have hne' : ¬ (p = t) := fun he => hne he.symm
  simp [Genetics.analyze_dependency_violations, Genetics.testContrib,
    Genetics.testPick, Genetics.mkAnalyzer, Genetics.load,
    Genetics.build_dependency_graph, Genetics.dictAddSet, dictInsert, dictGet,
    dictLookup, dictKeys, setAdd, hT, hP, hne, hne']

/-- Witness for C5 at names the code classifies as intended:
`Chimera.Testing.X` (contains `.Testing`) and `Prod.Y`. -/
theorem claim5_category_cycle_amended_witness :
    (Genetics.analyze_dependency_violations
      (Genetics.mkAnalyzer [("Chimera.Testing.X", ⟨["Prod.Y"], []⟩),
        ("Prod.Y", ⟨["Chimera.Testing.X"], []⟩)])).test_production_cycles
      = ["Chimera.Testing.X <-> Prod.Y"] :=
  claim5_category_cycle_amended "Chimera.Testing.X" "Prod.Y"
    (by decide) (by decide)

/-!  ## C7 amended — silent last-declaration-wins for every duplicate

An input containing two declarations of the same name `n` decomposes as
`ds₁ ++ (n, r1) :: ds₂`, with the later declaration of `n` anywhere in
`ds₂` (it need not be adjacent or last).  The theorem below shows the
earlier dependency set `r1` leaves no trace whatsoever in the build
output, and that the set actually stored for `n` is the one of the last
declaration of `n`. -/

/-- Two dicts of equal shape that agree on every entry except possibly in
the value stored at key `n`. -/
def RelExcept {V : Type} (n : String) (m m' : Dict V) : Prop :=
  List.Forall₂ (fun p q => p.1 = q.1 ∧ (p.1 ≠ n → p.2 = q.2)) m m'

/-- `RelExcept` is reflexive. -/
theorem relExcept_refl {V : Type} (n : String) (m : Dict V) :
    RelExcept n m m := by
  induction m with
  | nil => exact List.Forall₂.nil
  | cons p rest ih => exact List.Forall₂.cons ⟨rfl, fun _ => rfl⟩ ih

/-- Writing two different values at key `n` into the same dict produces
dicts that differ at most at `n`. -/
theorem relExcept_insert_value {V : Type} (n : String) (v v' : V) :
    ∀ m : Dict V, RelExcept n (dictInsert m n v) (dictInsert m n v') := by
  intro m
  induction m with
  | nil =>
    exact List.Forall₂.cons ⟨rfl, fun h => (h rfl).elim⟩ List.Forall₂.nil
  | cons p rest ih =>
    by_cases hp : p.1 = n
    · simp only [dictInsert, hp, if_true]
      exact List.Forall₂.cons ⟨rfl, fun h => (h rfl).elim⟩ (relExcept_refl n rest)
    · simp only [dictInsert, hp, if_false]
      exact List.Forall₂.cons ⟨rfl, fun _ => rfl⟩ ih

/-- Writing the same key/value pair into `RelExcept`-related dicts keeps
them related. -/
theorem relExcept_insert {V : Type} (n k : String) (v : V) :
    ∀ m m' : Dict V, RelExcept n m m' →
      RelExcept n (dictInsert m k v) (dictInsert m' k v) := by
  intro m
  induction m with
  | nil =>
    intro m' h
    cases h
    exact List.Forall₂.cons ⟨rfl, fun _ => rfl⟩ List.Forall₂.nil
  | cons p rest ih =>
    intro m' h
    cases h
    rename_i q rest' hpq hrest
    by_cases hk : p.1 = k
    · have hk' : q.1 = k := hpq.1 ▸ hk
      simp only [dictInsert, hk, hk', if_true]
      exact List.Forall₂.cons ⟨rfl, fun _ => rfl⟩ hrest
    · have hk' : ¬ q.1 = k := fun he => hk (hpq.1 ▸ he)
      simp only [dictInsert, hk, hk', if_false]
      exact List.Forall₂.cons hpq (ih rest' hrest)

/-- `RelExcept` dicts with no entry at the distinguished key are equal. -/
theorem relExcept_eq_of_not_mem {V : Type} (n : String) :
    ∀ m m' : Dict V, RelExcept n m m' → n ∉ dictKeys m → m = m' := by
  intro m
  induction m with
  | nil => intro m' h _; cases h; rfl
  | cons p rest ih =>
    intro m' h hn
    cases h
    rename_i q rest' hpq hrest
    have hn' : n ∉ (p.1 :: dictKeys rest) := hn
    have hp : p.1 ≠ n := by
      intro he
      exact hn' (by rw [← he]; exact List.mem_cons_self _ _)
    have hrestn : n ∉ dictKeys rest :=
      fun hm => hn' (List.mem_cons_of_mem _ hm)
    have hpq' : p = q := Prod.ext hpq.1 (hpq.2 hp)
    rw [hpq', ih rest' hrest hrestn]

/-- A dict assignment keeps the keys duplicate-free. -/
theorem dictInsert_nodupKeys {V : Type} (k : String) (v : V) :
    ∀ m : Dict V, (dictKeys m).Nodup → (dictKeys (dictInsert m k v)).Nodup := by
  intro m
  induction m with
  | nil => intro _; simp [dictInsert, dictKeys]
  | cons p rest ih =>
    intro hnd
    have hnd0 : (p.1 :: dictKeys rest).Nodup := hnd
    have hnd' := List.nodup_cons.mp hnd0
    by_cases hp : p.1 = k
    · have : (dictKeys (dictInsert (p :: rest) k v)) = p.1 :: dictKeys rest := by
        simp [dictInsert, hp, dictKeys]
      rw [this]
      exact hnd0
    · have h1 : p.1 ∉ dictKeys (dictInsert rest k v) := by
        rw [mem_dictKeys_dictInsert]
        rintro (rfl | hmem)
        · exact hp rfl
        · exact hnd'.1 hmem
      have : (dictKeys (dictInsert (p :: rest) k v))
          = p.1 :: dictKeys (dictInsert rest k v) := by
        simp [dictInsert, hp, dictKeys]
      rw [this]
      exact List.nodup_cons.mpr ⟨h1, ih hnd'.2⟩

/-- Writing the same value at the distinguished key makes
`RelExcept`-related dicts (with duplicate-free keys) equal. -/
theorem relExcept_insert_at_key {V : Type} (n : String) (v : V) :
    ∀ m m' : Dict V, RelExcept n m m' → (dictKeys m).Nodup →
      dictInsert m n v = dictInsert m' n v := by
  intro m
  induction m with
  | nil => intro m' h _; cases h; rfl
  | cons p rest ih =>
    intro m' h hnd
    cases h
    rename_i q rest' hpq hrest
    have hnd' := List.nodup_cons.mp (show (p.1 :: dictKeys rest).Nodup from hnd)
    by_cases hp : p.1 = n
    · have hq : q.1 = n := hpq.1 ▸ hp
      have hrn : n ∉ dictKeys rest := by rw [← hp]; exact hnd'.1
      simp only [dictInsert, hp, hq, if_true]
      rw [relExcept_eq_of_not_mem n rest rest' hrest hrn]
    · have hq : ¬ q.1 = n := fun he => hp (hpq.1 ▸ he)
      have hpq' : p = q := Prod.ext hpq.1 (hpq.2 hp)
      simp only [dictInsert, hp, hq, if_false]
      rw [hpq', ih rest' hrest hnd'.2]

/-- The first pass of `build_dependency_graph` keeps keys
duplicate-free. -/
theorem foldInsert_nodupKeys :
    ∀ (ds : List (String × List String)) (m : Dict (List String)),
      (dictKeys m).Nodup →
      (dictKeys (ds.foldl (fun a d => dictInsert a d.1 d.2) m)).Nodup := by
  intro ds
  induction ds with
  | nil => intro m h; exact h
  | cons d rest ih =>
    intro m h
    exact ih _ (dictInsert_nodupKeys d.1 d.2 m h)

/-- Once a later declaration of `n` is processed, the two first-pass runs
that differed only in the value previously stored at `n` coincide
exactly. -/
theorem fold_eq_of_relExcept (n : String) :
    ∀ (ds : List (String × List String)) (m m' : Dict (List String)),
      RelExcept n m m' → (dictKeys m).Nodup → n ∈ dictKeys ds →
      ds.foldl (fun a d => dictInsert a d.1 d.2) m
        = ds.foldl (fun a d => dictInsert a d.1 d.2) m' := by
  intro ds
  induction ds with
  | nil => intro m m' _ _ hn; cases hn
  | cons d rest ih =>
    intro m m' hrel hnd hn
    simp only [List.foldl_cons]
    by_cases hd : d.1 = n
    · rw [show dictInsert m d.1 d.2 = dictInsert m' d.1 d.2 by
        rw [hd]; exact relExcept_insert_at_key n d.2 m m' hrel hnd]
    · have hn' : n ∈ dictKeys rest := by
        rcases List.mem_cons.mp (show n ∈ d.1 :: dictKeys rest from hn) with
          he | hm
        · exact absurd he.symm hd
        · exact hm
      exact ih _ _ (relExcept_insert n d.1 d.2 m m' hrel)
        (dictInsert_nodupKeys d.1 d.2 m hnd) hn'

/-- The first pass never touches the entry of a name it does not
declare. -/
theorem fold_lookup_of_not_mem (n : String) :
    ∀ (ds : List (String × List String)) (m : Dict (List String)),
      n ∉ dictKeys ds →
      dictLookup (ds.foldl (fun a d => dictInsert a d.1 d.2) m) n
        = dictLookup m n := by
  intro ds
  induction ds with
  | nil => intro m _; rfl
  | cons d rest ih =>
    intro m hn
    have hn0 : n ∉ (d.1 :: dictKeys rest) := hn
    have hd : ¬ d.1 = n := by
      intro he
      exact hn0 (by rw [he]; exact List.mem_cons_self _ _)
    have hrest : n ∉ dictKeys rest :=
      fun hm => hn0 (List.mem_cons_of_mem _ hm)
    simp only [List.foldl_cons]
    rw [ih _ hrest, dictLookup_dictInsert, if_neg hd]

/-- C7 as amended: for every input containing two declarations of the
same module name — written `ds₁ ++ (n, r1) :: ds₂` with the later
declaration of `n` somewhere in `ds₂` — `build_dependency_graph` applies
last-declaration-wins silently: its entire output (there is no error
value and no observation channel in its result type) is unchanged when
the earlier conflicting dependency set `r1` is replaced by anything else,
and the dependency set actually stored for `n` is the one of the last
declaration of `n` (the case `n ∉ dictKeys ds₂`, where `(n, r1)` is that
last declaration). -/
theorem claim7_last_wins (ds₁ ds₂ : List (String × List String)) (n : String)
    (r1 r1' : List String) :
    (n ∈ dictKeys ds₂ →
      Acd.build_dependency_graph (ds₁ ++ (n, r1) :: ds₂)
        = Acd.build_dependency_graph (ds₁ ++ (n, r1') :: ds₂)) ∧
    (n ∉ dictKeys ds₂ →
      dictLookup (Acd.acdAssemblies (ds₁ ++ (n, r1) :: ds₂)) n = some r1) := by
  have hshape : ∀ r : List String,
      Acd.acdAssemblies (ds₁ ++ (n, r) :: ds₂)
        = ds₂.foldl (fun a d => dictInsert a d.1 d.2)
            (dictInsert (ds₁.foldl (fun a d => dictInsert a d.1 d.2) []) n r) := by
    intro r
    simp [Acd.acdAssemblies, List.foldl_append]
  constructor
  · intro hn
    have hnd1 : (dictKeys (ds₁.foldl (fun a d => dictInsert a d.1 d.2) [])).Nodup :=
      foldInsert_nodupKeys ds₁ [] (by simp [dictKeys])
    have hassem : Acd.acdAssemblies (ds₁ ++ (n, r1) :: ds₂)
        = Acd.acdAssemblies (ds₁ ++ (n, r1') :: ds₂) := by
      rw [hshape r1, hshape r1']
      exact fold_eq_of_relExcept n ds₂ _ _
        (relExcept_insert_value n r1 r1' _)
        (dictInsert_nodupKeys n r1 _ hnd1) hn
    simp [Acd.build_dependency_graph, hassem]
  · intro hn
    rw [hshape r1, fold_lookup_of_not_mem n ds₂ _ hn, dictLookup_dictInsert,
      if_pos rfl]

/-- Witness for C7: with the duplicate `X` declarations not adjacent
(`Z` declared in between), the full build output is unchanged when the
overridden dependency set `["Y"]` is replaced by `["Q"]`, and the stored
dependency set for `X` is the last declared one, `[]`. -/
theorem claim7_last_wins_witness :
    (Acd.build_dependency_graph [("X", ["Y"]), ("Z", []), ("X", [])]
      = Acd.build_dependency_graph [("X", ["Q"]), ("Z", []), ("X", [])]) ∧
    dictLookup (Acd.acdAssemblies [("X", ["Y"]), ("Z", []), ("X", [])]) "X"
      = some [] :=
  ⟨(claim7_last_wins [] [("Z", []), ("X", [])] "X" ["Y"] ["Q"]).1 (by decide),
   (claim7_last_wins [("X", ["Y"]), ("Z", [])] [] "X" [] []).2 (by decide)⟩

end Chimera
